import Mathlib

/-!
Verification of the JSON formatter in `src/v1/jsonFormatter.go`.

The Go code is shallowly embedded: the formatter's buffer writes become
string concatenation, runtime values (`interface{}`) become the inductive
type `GoVal`, and the standard library calls (`encoding/json`, `strconv`,
`reflect`) are modelled as Lean functions over that type.  A Go panic is
modelled as `Except.error`.

External inputs that the formatter reads but that are supplied by
collaborators outside `src/` (the rendered timestamp `time.Now().Format(timeFormat)`,
the level name `LevelMap[level]`, the captured stack `debug.Stack()`) are
passed as explicit string parameters.  Calls to the diagnostic side channel
`InternalLog.Error` only write to an external sink and do not affect the
produced bytes, so they are dropped from the embedding.
-/

/-- Abstract syntax of JSON documents.  Integer numbers carry their exact
value; non-integer numbers carry their rendered decimal text, because the Go
code writes `strconv.FormatFloat` output to the buffer verbatim. -/
inductive Json where
| null : Json
| bool (b : Bool) : Json
| num (n : Int) : Json
| flt (s : String) : Json
| str (s : String) : Json
| arr (elems : List Json) : Json
| obj (entries : List (String × Json)) : Json

/-- Decimal digit character (radix 10), as produced by `strconv`. -/
def decChar (d : Nat) : Char := Char.ofNat (48 + d)

/-- Lowercase hexadecimal digit character, as produced by Go's
`encoding/json` when writing a numeric escape. -/
def hexChar (d : Nat) : Char :=
  if d < 10 then Char.ofNat (48 + d) else Char.ofNat (87 + d)

/-- Digit production of `strconv.FormatUint(n, 10)`, most significant
first, with a structural fuel argument so that the definition reduces by
evaluation; `fuel > n` always suffices. -/
def natDigitsAux : Nat → Nat → List Char
| 0, _ => []
| fuel + 1, n =>
  if n < 10 then [decChar n]
  else natDigitsAux fuel (n / 10) ++ [decChar (n % 10)]

/-- Decimal digits of a natural number, most significant first. -/
def natDigits (n : Nat) : List Char := natDigitsAux (n + 1) n

/-- Decimal rendering of a natural number: `strconv.FormatUint(n, 10)`. -/
def formatNat (n : Nat) : String := String.mk (natDigits n)

/-- Decimal rendering of an integer: `strconv.FormatInt(n, 10)`. -/
def formatInt : Int → String
| Int.ofNat n => formatNat n
| Int.negSucc n => "-" ++ formatNat (n + 1)

/-- JSON escaping of one character, following Go's `encoding/json` string
encoder with its default HTML escaping: quote, backslash, the three short
control escapes, `\u00XX` for other control characters and for `<`, `>`,
`&`, and `\u2028`/`\u2029` for the two unicode line separators. -/
def escapeChar (c : Char) : List Char :=
  if c = '"' then ['\\', '"']
  else if c = '\\' then ['\\', '\\']
  else if c = '\n' then ['\\', 'n']
  else if c = '\r' then ['\\', 'r']
  else if c = '\t' then ['\\', 't']
  else if c.toNat < 32 ∨ c = '<' ∨ c = '>' ∨ c = '&' then
    ['\\', 'u', '0', '0', hexChar (c.toNat / 16), hexChar (c.toNat % 16)]
  else if c.toNat = 8232 then ['\\', 'u', '2', '0', '2', '8']
  else if c.toNat = 8233 then ['\\', 'u', '2', '0', '2', '9']
  else [c]

/-- JSON escaping of a character sequence. -/
def escapeList : List Char → List Char
| [] => []
| c :: cs => escapeChar c ++ escapeList cs

/-- The bytes `json.Marshal` produces for a Go string: a quoted, fully
escaped JSON string literal. -/
def jsonQuote (s : String) : String :=
  "\"" ++ String.mk (escapeList s.data) ++ "\""

mutual
/-- Compact rendering of a JSON document, as `json.Marshal` emits it. -/
def render : Json → String
| Json.null => "null"
| Json.bool true => "true"
| Json.bool false => "false"
| Json.num n => formatInt n
| Json.flt s => s
| Json.str s => jsonQuote s
| Json.arr l => "[" ++ renderElems l ++ "]"
| Json.obj es => "\x7b" ++ renderMembers es ++ "\x7d"

/-- Comma-separated rendering of array elements. -/
def renderElems : List Json → String
| [] => ""
| [j] => render j
| j :: rest => render j ++ "," ++ renderElems rest

/-- Comma-separated rendering of object members. -/
def renderMembers : List (String × Json) → String
| [] => ""
| [(k, v)] => jsonQuote k ++ ":" ++ render v
| (k, v) :: rest => jsonQuote k ++ ":" ++ render v ++ "," ++ renderMembers rest
end

/-- Runtime values that can sit in an `interface{}` argument of the
formatter.  `ptr none` is a typed nil pointer (a non-nil interface holding
a nil pointer).  `errV` is a value that implements the `error` interface
and whose reflect kind falls into the `default` branch of `appendValue`.
`other` is any remaining value shape (struct, map, channel, function, ...):
it carries the result of `json.Marshal` on the value (`none` when the value
is not structurally encodable) and its `fmt.Sprintf("%#v", v)` debug text. -/
inductive GoVal where
| nilI : GoVal
| boolean (b : Bool) : GoVal
| intV (n : Int) : GoVal
| uintV (n : Nat) : GoVal
| floatV (is32 : Bool) (fl : String) : GoVal
| str (s : String) : GoVal
| errV (msg : String) : GoVal
| slice (elems : List GoVal) : GoVal
| other (m : Option Json) (debugText : String) : GoVal
| ptr (p : Option GoVal) : GoVal

mutual
/-- Model of `encoding/json.Marshal` on the embedded value universe.
Pointers are dereferenced (nil pointers marshal to `null`), floats marshal
to their decimal text, and error values without exported fields marshal to
the empty object, as `errors.New`-style values do.  `none` means Marshal
returns an error (unsupported type). -/
def marshalVal : GoVal → Option Json
| GoVal.nilI => some Json.null
| GoVal.boolean b => some (Json.bool b)
| GoVal.intV n => some (Json.num n)
| GoVal.uintV n => some (Json.num (Int.ofNat n))
| GoVal.floatV _ s => some (Json.flt s)
| GoVal.str s => some (Json.str s)
| GoVal.errV _ => some (Json.obj [])
| GoVal.slice l => (marshalList l).map Json.arr
| GoVal.other m _ => m
| GoVal.ptr none => some Json.null
| GoVal.ptr (some v) => marshalVal v

/-- Marshal of a `[]interface{}`: fails when any element fails. -/
def marshalList : List GoVal → Option (List Json)
| [] => some []
| v :: rest =>
  match marshalVal v, marshalList rest with
  | some j, some js => some (j :: js)
  | _, _ => none
end

mutual
/-- Model of `fmt.Sprintf("%#v", v)`.  The spec (§9, design notes) treats
the exact fallback text as implementation-defined; only the `other`
constructor's carried text is ever observable through the claims. -/
def debugRepr : GoVal → String
| GoVal.nilI => "<nil>"
| GoVal.boolean true => "true"
| GoVal.boolean false => "false"
| GoVal.intV n => formatInt n
| GoVal.uintV n => formatNat n
| GoVal.floatV _ s => s
| GoVal.str s => "\"" ++ s ++ "\""
| GoVal.errV m => "&errors.errorString\x7b s:\"" ++ m ++ "\"\x7d"
| GoVal.slice l => "[]interface \x7b\x7d\x7b" ++ debugReprList l ++ "\x7d"
| GoVal.other _ d => d
| GoVal.ptr none => "(nil)"
| GoVal.ptr (some v) => "&" ++ debugRepr v

/-- Debug text of slice elements. -/
def debugReprList : List GoVal → String
| [] => ""
| [v] => debugRepr v
| v :: rest => debugRepr v ++ ", " ++ debugReprList rest
end

/-- Result of `json.Marshal` applied to a Go string value: this call always
succeeds, producing the escaped quoted literal.  The `Option` return keeps
the defensive error branches of the source representable. -/
def marshalStringO (s : String) : Option String := some (jsonQuote s)

/-- Modelled from the spec: the reserved callstack key under which
`writeError` files the captured stack (spec §8, example 9 shows
`"callstack"`).  The constant `callstackKey` is repository code outside
`src/`. -/
def callstackKey : String := "callstack"

/-- Modelled from the spec: the reserved imbalanced-arguments key (spec
§4.1 suggests `"args(odd)"`).  The constant `warnImbalancedKey` is
repository code outside `src/`. -/
def warnImbalancedKey : String := "args(odd)"

/-- Modelled from the spec: the bad-key marker that deterministically
encodes the offending positional index (spec §4.1 suggests `"badKey[i]"`).
The function `badKeyAtIndex` is repository code outside `src/`. -/
def badKeyAtIndex (i : Nat) : String := "badKey[" ++ formatNat i ++ "]"

/-- The message of the Go runtime panic raised by calling
`reflect.Value.Interface` on the zero `Value`. -/
def zeroValuePanic : String :=
  "reflect: call of reflect.Value.Interface on zero Value"

/-- Lines 24-32, `writeString`: marshal the string; on the (dead in
practice) error branch write the fixed literal instead. -/
def writeStringS (s : String) : String :=
  match marshalStringO s with
  | some b => b
  | none => "\"Could not marshal this key's string\""

/-- Lines 81-89 of `appendValue`: re-marshal the `Sprintf` fallback text
with the marshalling function `f`; if even that fails, write the fixed
placeholder literal.  The source instantiates `f` with `json.Marshal`
(that is, `marshalStringO`). -/
def fallbackWith (f : String → Option String) (d : String) : String :=
  match f d with
  | some b => b
  | none => "\"Could not Sprintf value\""

/-- Lines 46-51 of `appendValue`: one `reflect.Value.Elem` step on a `Ptr`
kind.  `none` is the zero `Value` obtained from a nil pointer. -/
def unwrap1 : GoVal → Option GoVal
| GoVal.ptr p => p
| v => some v

/-- Lines 52-92 of `appendValue`: the kind switch applied after the single
pointer dereference.  The `errV` case is lines 34-38 (`writeError`):
`writeString` of `err.Error()` followed by `set(callstackKey, debug.Stack())`,
whose value is a string and therefore marshals to a quoted literal.  The
final case is the `default` branch: the error-interface test has already
been dispatched to `errV`, so the value is handed to `json.Marshal`, with
the `Sprintf` fallback chain on failure. -/
def appendKind (stack : String) (u : GoVal) : String :=
  match u with
  | GoVal.boolean true => "true"
  | GoVal.boolean false => "false"
  | GoVal.intV n => formatInt n
  | GoVal.uintV n => formatNat n
  | GoVal.floatV _ s => s
  | GoVal.errV m =>
    writeStringS m ++ ", \"" ++ callstackKey ++ "\":" ++ writeStringS stack
  | u =>
    match marshalVal u with
    | some j => render j
    | none => fallbackWith marshalStringO (debugRepr u)

/-- Lines 40-93, `appendValue`.  A nil interface writes `null` (lines
41-44).  A typed nil pointer dereferences to the zero `Value`, reaches the
`default` branch and panics inside `reflect.Value.Interface` (modelled as
`Except.error`).  Every other value is rendered by the kind switch. -/
def appendValueE (stack : String) (v : GoVal) : Except String String :=
  match v with
  | GoVal.nilI => Except.ok ("null")
  | v =>
    match unwrap1 v with
    | none => Except.error zeroValuePanic
    | some u => Except.ok (appendKind stack u)

/-- Lines 95-101, `set`: write `, "key":` (the key verbatim, unescaped)
followed by the encoded value. -/
def setE (stack k : String) (v : GoVal) : Except String String :=
  (appendValueE stack v).map (fun s => ", \"" ++ k ++ "\":" ++ s)

/-- Lines 123-135 of `Format`: the even-length pairing loop.  `i` is the
running positional index of the key.  A key that is not a string, or is the
empty string, is replaced by the bad-key marker for its index. -/
def loopE (stack : String) : Nat → List GoVal → Except String String
| _, [] => Except.ok ("")
| i, k :: v :: rest =>
  (setE stack
    (match k with
     | GoVal.str s => if s = "" then badKeyAtIndex i else s
     | _ => badKeyAtIndex i) v).bind (fun chunk =>
  (loopE stack (i + 2) rest).map (fun r => chunk ++ r))
| _, [_] => Except.ok ("")

/-- Lines 120-139 of `Format`: the field section.  Even-length argument
lists run the pairing loop; odd-length lists produce the single
imbalanced-arguments field whose value is the whole raw slice. -/
def fieldsE (stack : String) (args : List GoVal) : Except String String :=
  if args.length > 0 then
    if args.length % 2 = 0 then loopE stack 0 args
    else setE stack warnImbalancedKey (GoVal.slice args)
  else Except.ok ("")

/-- Lines 104-141, `Format`.  `ts` is the rendered timestamp, `lvl` the
level name from `LevelMap`, `name` the formatter's bound name, `stack` the
`debug.Stack()` capture; all four are supplied by collaborators outside
this file's scope and written as the source writes them (the first three
verbatim).  The message is a Go string and is encoded by `appendValue`. -/
def formatE (ts lvl name stack msg : String) (args : List GoVal) :
    Except String String :=
  (appendValueE stack (GoVal.str msg)).bind (fun m =>
  (fieldsE stack args).map (fun fs =>
    "\x7b\"_t\":\"" ++ ts ++ "\"" ++
    ", \"_l\":\"" ++ lvl ++ "\"" ++
    ", \"_n\":\"" ++ name ++ "\"" ++
    ", \"_m\":" ++ m ++ fs ++ "\x7d\n"))

/-! # A JSON parser, modelling `encoding/json.Unmarshal`

`LogEntry` feeds the bytes produced by `Format` to `json.Unmarshal`.  The
parser below accepts exactly the JSON value grammar with interleaved
whitespace; integer literals parse to `Json.num`, number literals with a
fraction or exponent part parse to `Json.flt` carrying their exact text. -/

/-- Whitespace characters accepted between JSON tokens. -/
def isWsChar (c : Char) : Bool :=
  c = ' ' ∨ c = '\n' ∨ c = '\t' ∨ c = '\r'

/-- Skip leading whitespace. -/
def skipWs : List Char → List Char
| [] => []
| c :: cs => if isWsChar c then skipWs cs else c :: cs

/-- Value of one hexadecimal digit (either case). -/
def hexVal (c : Char) : Option Nat :=
  if 48 ≤ c.toNat ∧ c.toNat ≤ 57 then some (c.toNat - 48)
  else if 97 ≤ c.toNat ∧ c.toNat ≤ 102 then some (c.toNat - 87)
  else if 65 ≤ c.toNat ∧ c.toNat ≤ 70 then some (c.toNat - 55)
  else none

/-- Parse the body of a JSON string literal after the opening quote,
returning the unescaped characters and the input after the closing quote. -/
def parseStringBody : List Char → Option (List Char × List Char)
| [] => none
| c :: cs =>
  if c = '"' then some ([], cs)
  else if c = '\\' then
    match cs with
    | [] => none
    | e :: cs2 =>
      match e with
      | '"' => (parseStringBody cs2).map (fun p => ('"' :: p.1, p.2))
      | '\\' => (parseStringBody cs2).map (fun p => ('\\' :: p.1, p.2))
      | '/' => (parseStringBody cs2).map (fun p => ('/' :: p.1, p.2))
      | 'b' => (parseStringBody cs2).map (fun p => (Char.ofNat 8 :: p.1, p.2))
      | 'f' => (parseStringBody cs2).map (fun p => (Char.ofNat 12 :: p.1, p.2))
      | 'n' => (parseStringBody cs2).map (fun p => ('\n' :: p.1, p.2))
      | 'r' => (parseStringBody cs2).map (fun p => ('\r' :: p.1, p.2))
      | 't' => (parseStringBody cs2).map (fun p => ('\t' :: p.1, p.2))
      | 'u' =>
        match cs2 with
        | h1 :: h2 :: h3 :: h4 :: cs3 =>
          match hexVal h1, hexVal h2, hexVal h3, hexVal h4 with
          | some a, some b, some c, some d =>
            let code := a * 4096 + b * 256 + c * 16 + d
            if h : code.isValidChar then
              (parseStringBody cs3).map
                (fun p => (Char.ofNatAux code h :: p.1, p.2))
            else none
          | _, _, _, _ => none
        | _ => none
      | _ => none
  else if c.toNat < 32 then none
  else (parseStringBody cs).map (fun p => (c :: p.1, p.2))

/-- Longest prefix of decimal digits. -/
def takeDigits : List Char → List Char × List Char
| [] => ([], [])
| c :: cs =>
  if c.isDigit then
    let p := takeDigits cs
    (c :: p.1, p.2)
  else ([], c :: cs)

/-- Accumulate the value of a decimal digit list. -/
def digitsToNatAux (acc : Nat) : List Char → Nat
| [] => acc
| c :: cs => digitsToNatAux (acc * 10 + (c.toNat - 48)) cs

/-- Numeric value of a decimal digit list. -/
def digitsToNat (ds : List Char) : Nat := digitsToNatAux 0 ds

/-- Parse the optional exponent part of a number; returns the consumed
characters and the remaining input. -/
def parseExpPart : List Char → Option (List Char × List Char)
| [] => some ([], [])
| c :: cs =>
  if c = 'e' ∨ c = 'E' then
    match cs with
    | s :: cs2 =>
      if s = '+' ∨ s = '-' then
        let p := takeDigits cs2
        if p.1 = [] then none else some (c :: s :: p.1, p.2)
      else
        let p := takeDigits cs
        if p.1 = [] then none else some (c :: p.1, p.2)
    | [] => none
  else some ([], c :: cs)

/-- Parse the digits, optional fraction and optional exponent of a JSON
number after the optional leading minus sign (already recorded in `sgn`).
An integer literal yields `Json.num`; anything else yields `Json.flt` with
the exact consumed text. -/
def parseNumberCore (sgn cs1 : List Char) : Option (Json × List Char) :=
  let p1 := takeDigits cs1
  if p1.1 = [] then none
  else if p1.2.head? = some ('.') then
    let p2 := takeDigits p1.2.tail
    if p2.1 = [] then none
    else
      match parseExpPart p2.2 with
      | some p3 =>
        some (Json.flt (String.mk (sgn ++ p1.1 ++ '.' :: p2.1 ++ p3.1)), p3.2)
      | none => none
  else
    match parseExpPart p1.2 with
    | some ([], _) =>
      if sgn = [] then some (Json.num (Int.ofNat (digitsToNat p1.1)), p1.2)
      else some (Json.num (-Int.ofNat (digitsToNat p1.1)), p1.2)
    | some (es, cs5) => some (Json.flt (String.mk (sgn ++ p1.1 ++ es)), cs5)
    | none => none

/-- Parse a JSON number. -/
def parseNumber (cs : List Char) : Option (Json × List Char) :=
  if cs.head? = some ('-') then parseNumberCore ['-'] cs.tail
  else parseNumberCore [] cs

mutual
/-- Parse one JSON value, skipping leading whitespace.  The fuel bounds the
nesting depth; any fuel at least the total node count of the value
suffices. -/
def parseValue : Nat → List Char → Option (Json × List Char)
| 0, _ => none
| fuel + 1, cs =>
  match skipWs cs with
  | [] => none
  | c :: rest =>
    if c = 'n' then
      match rest with
      | 'u' :: 'l' :: 'l' :: r => some (Json.null, r)
      | _ => none
    else if c = 't' then
      match rest with
      | 'r' :: 'u' :: 'e' :: r => some (Json.bool true, r)
      | _ => none
    else if c = 'f' then
      match rest with
      | 'a' :: 'l' :: 's' :: 'e' :: r => some (Json.bool false, r)
      | _ => none
    else if c = '"' then
      (parseStringBody rest).map (fun p => (Json.str (String.mk p.1), p.2))
    else if c = '\x7b' then
      match skipWs rest with
      | [] => none
      | c2 :: rest2 =>
        if c2 = '\x7d' then some (Json.obj [], rest2)
        else (parseMembers fuel (c2 :: rest2)).map
          (fun p => (Json.obj p.1, p.2))
    else if c = '[' then
      match skipWs rest with
      | [] => none
      | c2 :: rest2 =>
        if c2 = ']' then some (Json.arr [], rest2)
        else (parseElems fuel (c2 :: rest2)).map
          (fun p => (Json.arr p.1, p.2))
    else if c = '-' ∨ c.isDigit then parseNumber (c :: rest)
    else none

/-- Parse the members of a non-empty JSON object, positioned at the first
key (whitespace already skipped), through the closing brace. -/
def parseMembers : Nat → List Char → Option (List (String × Json) × List Char)
| 0, _ => none
| fuel + 1, cs =>
  match cs with
  | '"' :: rest =>
    (match parseStringBody rest with
     | some (k, rest1) =>
       (match skipWs rest1 with
        | ':' :: rest2 =>
          (match parseValue fuel rest2 with
           | some (v, rest3) =>
             (match skipWs rest3 with
              | ',' :: rest4 =>
                (parseMembers fuel (skipWs rest4)).map
                  (fun p => ((String.mk k, v) :: p.1, p.2))
              | '\x7d' :: rest4 => some ([(String.mk k, v)], rest4)
              | _ => none)
           | none => none)
        | _ => none)
     | none => none)
  | _ => none

/-- Parse the elements of a non-empty JSON array, through the closing
bracket. -/
def parseElems : Nat → List Char → Option (List Json × List Char)
| 0, _ => none
| fuel + 1, cs =>
  match parseValue fuel cs with
  | some (v, rest) =>
    (match skipWs rest with
     | ',' :: rest2 => (parseElems fuel rest2).map (fun p => (v :: p.1, p.2))
     | ']' :: rest2 => some ([v], rest2)
     | _ => none)
  | none => none
end

/-- Replace-or-append insertion into an association list: the Go map
assignment `entry[k] = v` performed for each decoded member, where a later
duplicate key overwrites the earlier value. -/
def insertEntry (m : List (String × Json)) (k : String) (v : Json) :
    List (String × Json) :=
  match m with
  | [] => [(k, v)]
  | (k0, v0) :: rest =>
    if k0 = k then (k0, v) :: rest else (k0, v0) :: insertEntry rest k v

/-- Build the decoded map from the raw member list, later keys winning. -/
def buildMap (es : List (String × Json)) : List (String × Json) :=
  es.foldl (fun m kv => insertEntry m kv.1 kv.2) []

/-- Value stored under a key in the decoded map. -/
def lookupKey (m : List (String × Json)) (k : String) : Option Json :=
  match m with
  | [] => none
  | (k0, v) :: rest => if k0 = k then some v else lookupKey rest k

/-- Model of `json.Unmarshal(bs, &entry)` for `entry : map[string]interface{}`:
the input must be one JSON value that is an object, possibly surrounded by
whitespace, and duplicate keys collapse with the last occurrence winning. -/
def unmarshalMap (s : String) : Option (List (String × Json)) :=
  match parseValue (s.length + 1) s.data with
  | some (Json.obj es, rest) =>
    if skipWs rest = [] then some (buildMap es) else none
  | some (_, _) => none
  | none => none

/-- Lines 146-155, `LogEntry`: run `Format` into a fresh buffer, then
unmarshal the bytes; a decode failure panics (modelled as `Except.error`
with the source's message). -/
def logEntryE (ts lvl name stack msg : String) (args : List GoVal) :
    Except String (List (String × Json)) :=
  match formatE ts lvl name stack msg args with
  | Except.error e => Except.error e
  | Except.ok out =>
    match unmarshalMap out with
    | some m => Except.ok m
    | none => Except.error ("Unable to unmarhsal entry from JSONFormatter")

/-- Does the byte stream parse as one syntactically valid JSON value
(trailing whitespace allowed)?  This is the validity notion of the spec's
"output parses as valid JSON". -/
def jsonParses (s : String) : Bool :=
  match parseValue (s.length + 1) s.data with
  | some (_, rest) => (skipWs rest).isEmpty
  | none => false

/-! # Structured view of the emitted fields

`Format` writes its fields as one flat byte stream.  The definitions below
mirror the same loop at the level of `(key, encoded-value-bytes)` lists, so
that claims about the *number* and *identity* of emitted fields can be
stated; the `loopE_eq_pairFields`-style lemmas prove that rendering the
structured list reproduces the byte stream exactly. -/

/-- The key chosen by lines 124-134 for the pair whose key occupies
position `i`: the key itself when it is a non-empty string, the bad-key
marker otherwise. -/
def keyFor (i : Nat) (k : GoVal) : String :=
  match k with
  | GoVal.str s => if s = "" then badKeyAtIndex i else s
  | _ => badKeyAtIndex i

/-- The fields that `set key v` contributes to the record: one field for
the value, plus the callstack sibling when the value is error-typed. -/
def fieldsForE (stack k : String) (v : GoVal) :
    Except String (List (String × String)) :=
  match v with
  | GoVal.nilI => Except.ok [(k, "null")]
  | v =>
    match unwrap1 v with
    | none => Except.error zeroValuePanic
    | some (GoVal.errV m) =>
      Except.ok [(k, writeStringS m), (callstackKey, writeStringS stack)]
    | some u => Except.ok [(k, appendKind stack u)]

/-- Byte rendering of one structured field, exactly as `set` writes it. -/
def renderField (kv : String × String) : String :=
  ", \"" ++ kv.1 ++ "\":" ++ kv.2

/-- Byte rendering of a structured field list. -/
def renderFields : List (String × String) → String
| [] => ""
| kv :: rest => renderField kv ++ renderFields rest

/-- Structured mirror of the even-length pairing loop. -/
def pairFieldsE (stack : String) : Nat → List GoVal →
    Except String (List (String × String))
| _, [] => Except.ok []
| i, k :: v :: rest =>
  (fieldsForE stack (keyFor i k) v).bind (fun fs =>
  (pairFieldsE stack (i + 2) rest).map (fun r => fs ++ r))
| _, [_] => Except.ok []

/-- Structured mirror of the whole field section of `Format`. -/
def formatFieldsE (stack : String) (args : List GoVal) :
    Except String (List (String × String)) :=
  if args.length > 0 then
    if args.length % 2 = 0 then pairFieldsE stack 0 args
    else fieldsForE stack warnImbalancedKey (GoVal.slice args)
  else Except.ok []

/-- Number of error-typed values in value position of an even-length
argument list; each one makes `writeError` emit an extra callstack field. -/
def errPairCount : List GoVal → Nat
| [] => 0
| _ :: v :: rest =>
  (match unwrap1 v with
   | some (GoVal.errV _) => 1
   | _ => 0) + errPairCount rest
| [_] => 0

/-! # Auxiliary predicates for the universally quantified claims -/

/-- Does `l` start with `s`? -/
def startsWithL : List Char → List Char → Bool
| _, [] => true
| [], _ :: _ => false
| h :: t, s :: r => h = s && startsWithL t r

/-- Does `hay` contain `sub` as a contiguous run? -/
def hasSub (hay sub : List Char) : Bool :=
  match hay with
  | [] => sub.isEmpty
  | _ :: t => startsWithL hay sub || hasSub t sub

/-- A string that JSON escaping leaves unchanged: no quote, backslash,
control character or other escaped character occurs in it.  Such a string
is written identically by the verbatim writes of `Format` and by
`json.Marshal`. -/
def strCleanB (s : String) : Bool := escapeList s.data == s.data

/-- A value in an even-position slot whose encoding does not hit the
typed-nil-pointer panic. -/
def valOk : GoVal → Bool
| GoVal.ptr none => false
| _ => true

/-- Shape check for the text carried by `Json.flt`: the number parser
consumes it in full and classifies it as a float (a fraction or exponent
part is present).  `strconv.FormatFloat` output for finite floats that is
not integer-shaped has this shape (`NaN`, `+Inf`, `-Inf` do not). -/
def isFltShape (s : String) : Bool :=
  match parseNumber s.data with
  | some (Json.flt t, []) => t == s
  | _ => false

mutual
/-- Well-formedness of a JSON document for parser round-tripping: every
float literal has the shape the parser classifies as a float. -/
def wfJ : Json → Bool
| Json.null => true
| Json.bool _ => true
| Json.num _ => true
| Json.flt s => isFltShape s
| Json.str _ => true
| Json.arr l => wfJList l
| Json.obj es => wfJMembers es

/-- Well-formedness of array elements. -/
def wfJList : List Json → Bool
| [] => true
| j :: rest => wfJ j && wfJList rest

/-- Well-formedness of object members. -/
def wfJMembers : List (String × Json) → Bool
| [] => true
| (_, v) :: rest => wfJ v && wfJMembers rest
end

mutual
/-- Node count of a JSON document; any parser fuel of at least this size
parses the rendered document. -/
def sizeJ : Json → Nat
| Json.null => 1
| Json.bool _ => 1
| Json.num _ => 1
| Json.flt _ => 1
| Json.str _ => 1
| Json.arr l => 1 + sizeJList l
| Json.obj es => 1 + sizeJMembers es

/-- Total node count of array elements. -/
def sizeJList : List Json → Nat
| [] => 0
| j :: rest => 1 + sizeJ j + sizeJList rest

/-- Total node count of object members. -/
def sizeJMembers : List (String × Json) → Nat
| [] => 0
| (_, v) :: rest => 1 + sizeJ v + sizeJMembers rest
end

mutual
/-- Well-formedness of an argument value: float texts have float shape and
marshal oracles are well-formed documents, so that every byte chunk the
encoder emits for the value is the rendering of a well-formed document. -/
def wfVal : GoVal → Bool
| GoVal.nilI => true
| GoVal.boolean _ => true
| GoVal.intV _ => true
| GoVal.uintV _ => true
| GoVal.floatV _ s => isFltShape s
| GoVal.str _ => true
| GoVal.errV _ => true
| GoVal.slice l => wfValList l
| GoVal.other m _ =>
  (match m with
   | some j => wfJ j
   | none => true)
| GoVal.ptr none => true
| GoVal.ptr (some v) => wfVal v

/-- Well-formedness of a value list. -/
def wfValList : List GoVal → Bool
| [] => true
| v :: rest => wfVal v && wfValList rest
end

/-- Conditions on an even-length argument list under which `Format`
produces well-formed JSON: every string key used verbatim is clean, every
value is well-formed and avoids the typed-nil panic. -/
def pairArgsOk : List GoVal → Bool
| [] => true
| k :: v :: rest =>
  (match k with
   | GoVal.str s => s = "" || strCleanB s
   | _ => true) && valOk v && wfVal v && pairArgsOk rest
| [_] => true

/-- The JSON value a non-error value's byte chunk renders: the marshal
result, or the quoted debug text on marshal failure. -/
def chunkJson (u : GoVal) : Json :=
  match marshalVal u with
  | some j => j
  | none => Json.str (debugRepr u)

/-- Json-level mirror of `fieldsForE`: the parsed form of the fields that
`set key v` contributes.  (The typed-nil panic case returns `[]`; it is
excluded wherever this function is used.) -/
def fieldEntriesJson (stack k : String) (v : GoVal) : List (String × Json) :=
  match v with
  | GoVal.nilI => [(k, Json.null)]
  | v =>
    match unwrap1 v with
    | none => []
    | some (GoVal.errV m) => [(k, Json.str m), (callstackKey, Json.str stack)]
    | some u => [(k, chunkJson u)]

/-- Json-level mirror of the pairing loop. -/
def pairEntriesJson (stack : String) : Nat → List GoVal → List (String × Json)
| _, [] => []
| i, k :: v :: rest =>
  fieldEntriesJson stack (keyFor i k) v ++ pairEntriesJson stack (i + 2) rest
| _, [_] => []

/-- Json-level mirror of the whole field section. -/
def formatEntriesJson (stack : String) (args : List GoVal) :
    List (String × Json) :=
  if args.length > 0 then
    if args.length % 2 = 0 then pairEntriesJson stack 0 args
    else fieldEntriesJson stack warnImbalancedKey (GoVal.slice args)
  else []

/-- The full member list of the JSON object that `Format` produces: the
four fixed keys followed by the field entries. -/
def logEntries (ts lvl name stack msg : String) (args : List GoVal) :
    List (String × Json) :=
  [("_t", Json.str ts), ("_l", Json.str lvl), ("_n", Json.str name),
   ("_m", Json.str msg)] ++ formatEntriesJson stack args

/-- Pairwise distinctness of the member keys. -/
def distinctKeys : List (String × Json) → Bool
| [] => true
| (k, _) :: rest => rest.all (fun kv => !(kv.1 == k)) && distinctKeys rest

/-- The text layout in which `Format` writes the members of its object:
keys verbatim between quotes, values as their byte chunks, members
separated by `", "`.  Parsing the produced object is proved against this
layout. -/
def membersText : List (String × Json) → List Char
| [] => []
| [(k, v)] => '"' :: (k.data ++ ['"', ':'] ++ (render v).data)
| (k, v) :: rest =>
  '"' :: (k.data ++ ['"', ':'] ++ (render v).data ++ [',', ' '] ++ membersText rest)

/-- A tail before which a rendered value parses unambiguously: empty, or
starting with a character that cannot extend a number literal. -/
def goodTail : List Char → Bool
| [] => true
| c :: _ => !(c.isDigit || c = '.' || c = 'e' || c = 'E' || c = '+' || c = '-')

/-- The text of all object members after the first in `Format`'s layout:
each preceded by `", "`, with verbatim keys and rendered values. -/
def tailText : List (String × Json) → List Char
| [] => []
| (k, v) :: rest =>
  ',' :: ' ' :: '"' :: (k.data ++ ['"', ':'] ++ (render v).data) ++ tailText rest

/-- Conditions under which `Format` produces parseable output from its
argument list: on the even path every pair satisfies `pairArgsOk`; on the
odd path the whole list only needs well-formed values (the slice marshal
handles nil pointers itself). -/
def formatArgsOk (args : List GoVal) : Bool :=
  if args.length % 2 = 0 then pairArgsOk args else wfValList args

/-- The value attached to the last occurrence of a key in a raw member
list — the value `json.Unmarshal`'s map retains for a duplicated key. -/
def lastVal : List (String × Json) → String → Option Json
| [], _ => none
| (k0, v0) :: rest, k =>
  match lastVal rest k with
  | some v => some v
  | none => if k0 = k then some v0 else none

theorem string_append_assoc (a b c : String) : a ++ b ++ c = a ++ (b ++ c) := by
  apply String.ext
  simp [String.data_append, List.append_assoc]

theorem string_data_eq (a b : String) (h : a.data = b.data) : a = b :=
  String.ext h

theorem renderFields_append (a b : List (String × String)) :
    renderFields (a ++ b) = renderFields a ++ renderFields b := by
  induction a with
  | nil =>
    apply string_data_eq
    simp [renderFields, String.data_append]
  | cons kv rest ih =>
    apply string_data_eq
    have := congrArg String.data ih
    simp only [List.cons_append, renderFields, String.data_append] at this ⊢
    simp [this, List.append_assoc]

theorem renderFields_single (kv : String × String) :
    renderFields [kv] = renderField kv := by
  apply string_data_eq
  simp [renderFields, String.data_append]

theorem setE_eq_fieldsFor (stack k : String) (v : GoVal) :
    setE stack k v = (fieldsForE stack k v).map renderFields := by
  have herr : ∀ m : String,
      (", \"" ++ k ++ "\":" ++ appendKind stack (GoVal.errV m) : String) =
      renderFields [(k, writeStringS m), (callstackKey, writeStringS stack)] := by
    intro m
    apply string_data_eq
    simp [appendKind, renderFields, renderField, String.data_append,
      List.append_assoc]
  cases v with
  | nilI =>
    simp [setE, appendValueE, fieldsForE, Except.map, renderFields_single]
    rfl
  | errV m =>
    simp [setE, appendValueE, fieldsForE, unwrap1, Except.map, herr]
  | ptr p =>
    cases p with
    | none => rfl
    | some u =>
      cases u <;>
        simp [setE, appendValueE, fieldsForE, unwrap1, Except.map, herr,
          renderFields_single, renderField]
  | _ =>
    simp [setE, appendValueE, fieldsForE, unwrap1, Except.map,
      renderFields_single, renderField]

theorem loopE_eq_pairFields (stack : String) :
    ∀ (args : List GoVal) (i : Nat),
    loopE stack i args = (pairFieldsE stack i args).map renderFields
| [], _ => rfl
| [_], _ => rfl
| k :: v :: rest, i => by
  have ih := loopE_eq_pairFields stack rest (i + 2)
  show (setE stack (keyFor i k) v).bind _ = _
  rw [setE_eq_fieldsFor, ih]
  simp only [pairFieldsE]
  cases hf : fieldsForE stack (keyFor i k) v with
  | error e => simp [Except.map, Except.bind]
  | ok fs =>
    cases hp : pairFieldsE stack (i + 2) rest with
    | error e => simp [Except.map, Except.bind]
    | ok l =>
      simp [Except.map, Except.bind, renderFields_append]

theorem fieldsE_eq_formatFields (stack : String) (args : List GoVal) :
    fieldsE stack args = (formatFieldsE stack args).map renderFields := by
  unfold fieldsE formatFieldsE
  by_cases h0 : args.length > 0
  · by_cases h2 : args.length % 2 = 0
    · simp [h0, h2, loopE_eq_pairFields]
    · simp [h0, h2, setE_eq_fieldsFor]
  · simp [h0]
    rfl

theorem fieldsForE_length (stack k : String) (v : GoVal)
    (fs : List (String × String)) (h : fieldsForE stack k v = Except.ok fs) :
    fs.length = 1 + (match unwrap1 v with
                     | some (GoVal.errV _) => 1
                     | _ => 0) := by
  cases v with
  | nilI =>
    simp only [fieldsForE] at h
    cases h
    rfl
  | ptr p =>
    cases p with
    | none => simp [fieldsForE, unwrap1] at h
    | some u =>
      cases u <;> (simp only [fieldsForE, unwrap1] at h; cases h; rfl)
  | _ =>
    simp only [fieldsForE, unwrap1] at h <;> (cases h; rfl)

theorem pairFields_length (stack : String) :
    ∀ (args : List GoVal) (i : Nat) (l : List (String × String)),
    pairFieldsE stack i args = Except.ok l →
    l.length = args.length / 2 + errPairCount args
| [], i, l => by
  intro h
  cases h
  rfl
| [x], i, l => by
  intro h
  cases h
  simp [errPairCount]
| k :: v :: rest, i, l => by
  intro h
  simp only [pairFieldsE] at h
  cases hf : fieldsForE stack (keyFor i k) v with
  | error e => rw [hf] at h; simp [Except.bind] at h
  | ok fs =>
    rw [hf] at h
    cases hp : pairFieldsE stack (i + 2) rest with
    | error e => rw [hp] at h; simp [Except.bind, Except.map] at h
    | ok l2 =>
      rw [hp] at h
      simp only [Except.bind, Except.map] at h
      cases h
      have ih := pairFields_length stack rest (i + 2) l2 hp
      have hfl := fieldsForE_length stack (keyFor i k) v fs hf
      simp only [List.length_append, ih, hfl, List.length_cons, errPairCount]
      cases hu : unwrap1 v with
      | none => simp [hu]; omega
      | some u => cases u <;> (simp [hu]; omega)

theorem pairFields_contrib (stack : String) :
    ∀ (pre : List GoVal) (i : Nat) (k v : GoVal) (post : List GoVal)
      (l : List (String × String)),
    pre.length % 2 = 0 →
    pairFieldsE stack i (pre ++ k :: v :: post) = Except.ok l →
    ∃ fs l1 l2, fieldsForE stack (keyFor (i + pre.length) k) v = Except.ok fs ∧
      l = l1 ++ fs ++ l2
| [], i, k, v, post, l => by
  intro _ h
  simp only [List.nil_append, pairFieldsE] at h
  cases hf : fieldsForE stack (keyFor i k) v with
  | error e => rw [hf] at h; simp [Except.bind] at h
  | ok fs =>
    rw [hf] at h
    cases hp : pairFieldsE stack (i + 2) post with
    | error e => rw [hp] at h; simp [Except.bind, Except.map] at h
    | ok l2 =>
      rw [hp] at h
      simp only [Except.bind, Except.map] at h
      cases h
      exact ⟨fs, [], l2, by simpa using hf, by simp⟩
| [x], i, k, v, post, l => by
  intro hev
  simp at hev
| a :: b :: pre, i, k, v, post, l => by
  intro hev h
  simp only [List.cons_append, pairFieldsE, List.append_eq] at h
  cases hf : fieldsForE stack (keyFor i a) b with
  | error e => rw [hf] at h; simp [Except.bind] at h
  | ok fs0 =>
    rw [hf] at h
    cases hp : pairFieldsE stack (i + 2) (pre ++ k :: v :: post) with
    | error e => rw [hp] at h; simp [Except.bind, Except.map] at h
    | ok l2 =>
      rw [hp] at h
      simp only [Except.bind, Except.map] at h
      cases h
      have hev2 : pre.length % 2 = 0 := by
        simp only [List.length_cons] at hev
        omega
      obtain ⟨fs, l1, l2x, hfx, hlx⟩ :=
        pairFields_contrib stack pre (i + 2) k v post l2 hev2 hp
      refine ⟨fs, fs0 ++ l1, l2x, ?_, ?_⟩
      · have : i + 2 + pre.length = i + (a :: b :: pre).length := by
          simp [List.length_cons]
          omega
        rw [← this]
        exact hfx
      · rw [hlx]
        simp [List.append_assoc]

/-! # Decimal digit lemmas -/

theorem decChar_toNat (d : Nat) (h : d < 10) : (decChar d).toNat = 48 + d := by
  interval_cases d <;> decide

theorem decChar_isDigit (d : Nat) (h : d < 10) : (decChar d).isDigit = true := by
  interval_cases d <;> decide

theorem digitsToNatAux_append (a b : List Char) :
    ∀ acc, digitsToNatAux acc (a ++ b) = digitsToNatAux (digitsToNatAux acc a) b := by
  induction a with
  | nil => intro acc; rfl
  | cons c cs ih =>
    intro acc
    have h1 : digitsToNatAux acc (c :: cs) =
        digitsToNatAux (acc * 10 + (c.toNat - 48)) cs := rfl
    have h2 : digitsToNatAux acc (c :: (cs ++ b)) =
        digitsToNatAux (acc * 10 + (c.toNat - 48)) (cs ++ b) := rfl
    simp only [List.cons_append, h2, h1, ih]

theorem natDigitsAux_value (fuel : Nat) :
    ∀ n acc, n < fuel →
    digitsToNatAux acc (natDigitsAux fuel n) =
      acc * 10 ^ (natDigitsAux fuel n).length + n := by
  induction fuel with
  | zero => intro n acc h; omega
  | succ fuel ih =>
    intro n acc h
    by_cases h10 : n < 10
    · have e1 : natDigitsAux (fuel + 1) n = [decChar n] := by
        simp [natDigitsAux, h10]
      have e2 : ∀ c, digitsToNatAux acc [c] = acc * 10 + (c.toNat - 48) := by
        intro c; rfl
      rw [e1, e2, decChar_toNat n h10]
      simp [pow_one]
    · have hdiv : n / 10 < fuel := by
        have : n / 10 < n := Nat.div_lt_self (by omega) (by omega)
        omega
      have hmod : n % 10 < 10 := Nat.mod_lt _ (by omega)
      have e1 : natDigitsAux (fuel + 1) n =
          natDigitsAux fuel (n / 10) ++ [decChar (n % 10)] := by
        simp [natDigitsAux, h10]
      have e2 : ∀ x c, digitsToNatAux x [c] = x * 10 + (c.toNat - 48) := by
        intro x c; rfl
      rw [e1, digitsToNatAux_append, e2, decChar_toNat (n % 10) hmod,
        ih (n / 10) acc hdiv, List.length_append, List.length_cons,
        List.length_nil, pow_succ]
      have hdm := Nat.div_add_mod n 10
      ring_nf
      omega

theorem natDigits_value (n : Nat) : digitsToNat (natDigits n) = n := by
  have := natDigitsAux_value (n + 1) n 0 (by omega)
  simpa [digitsToNat, natDigits] using this

theorem natDigitsAux_digits (fuel : Nat) :
    ∀ n, n < fuel → ∀ c ∈ natDigitsAux fuel n, c.isDigit = true := by
  induction fuel with
  | zero => intro n h; omega
  | succ fuel ih =>
    intro n h c hc
    by_cases h10 : n < 10
    · simp [natDigitsAux, h10] at hc
      subst hc
      exact decChar_isDigit n h10
    · have hdiv : n / 10 < fuel := by
        have : n / 10 < n := Nat.div_lt_self (by omega) (by omega)
        omega
      simp only [natDigitsAux, if_neg h10, List.mem_append,
        List.mem_singleton] at hc
      rcases hc with hc | hc
      · exact ih (n / 10) hdiv c hc
      · subst hc
        exact decChar_isDigit (n % 10) (Nat.mod_lt _ (by omega))

theorem natDigits_digits (n : Nat) : ∀ c ∈ natDigits n, c.isDigit = true :=
  natDigitsAux_digits (n + 1) n (by omega)

theorem natDigitsAux_ne_nil (fuel n : Nat) (h : n < fuel) :
    natDigitsAux fuel n ≠ [] := by
  cases fuel with
  | zero => omega
  | succ fuel =>
    by_cases h10 : n < 10 <;> simp [natDigitsAux, h10]

/-! # Claims C2 and C7: the typed-nil-pointer panic -/

/-- C2: the claim says `Format` completes without an unrecoverable failure
for every input, including nil-typed values.  The code violates this: a
typed nil pointer passed as a field value dereferences to the zero
`reflect.Value`, whose `Interface()` call panics, contradicting the
source's own comment "JSONFormatter should never panic" (line 84).  This
theorem evaluates the embedded code at the failing input: for every
timestamp, level, name, stack and message, `Format` with field arguments
`["port", (*int)(nil)]` panics. -/
theorem C2_format_panics_on_typed_nil_pointer :
    ∀ ts lvl name stack msg : String,
    formatE ts lvl name stack msg [GoVal.str ("port"), GoVal.ptr none] =
      Except.error zeroValuePanic := by
  intro ts lvl name stack msg
  have hmsg : appendValueE stack (GoVal.str msg) =
      Except.ok (jsonQuote msg) := rfl
  have hfields : fieldsE stack [GoVal.str ("port"), GoVal.ptr none] =
      Except.error zeroValuePanic := rfl
  simp [formatE, hmsg, hfields, Except.bind, Except.map]

/-- C7: the claim says the value encoder is total, rendering nil as
`null`, booleans and integers (after one pointer dereference) exactly.
The primitive precedence holds and the decimal renderings are exact, but
totality fails: the typed nil pointer makes the encoder panic, against the
source's own "should never panic" comment, so the code — not the claim's
precedence part — is at fault on totality. -/
theorem C7_encode_precedence_and_totality_failure :
    ∀ stack : String,
    (appendValueE stack GoVal.nilI = Except.ok ("null")) ∧
    (∀ b, appendValueE stack (GoVal.boolean b) =
      Except.ok (cond b ("true") ("false"))) ∧
    (∀ b, appendValueE stack (GoVal.ptr (some (GoVal.boolean b))) =
      Except.ok (cond b ("true") ("false"))) ∧
    (∀ n : Int, appendValueE stack (GoVal.intV n) =
      Except.ok (formatInt n)) ∧
    (∀ n : Int, appendValueE stack (GoVal.ptr (some (GoVal.intV n))) =
      Except.ok (formatInt n)) ∧
    (∀ n : Nat, appendValueE stack (GoVal.uintV n) =
      Except.ok (formatNat n)) ∧
    (∀ n : Nat, appendValueE stack (GoVal.ptr (some (GoVal.uintV n))) =
      Except.ok (formatNat n)) ∧
    (∀ n : Nat, digitsToNat (natDigits n) = n) ∧
    (appendValueE stack (GoVal.ptr none) = Except.error zeroValuePanic) := by
  intro stack
  refine ⟨rfl, ?_, ?_, ?_, ?_, ?_, ?_, natDigits_value, rfl⟩
  · intro b; cases b <;> rfl
  · intro b; cases b <;> rfl
  · intro n; rfl
  · intro n; rfl
  · intro n; rfl
  · intro n; rfl

/-! # Claim C9: the fallback chain -/

/-- C9: when structural encoding fails (`json.Marshal` returns an error),
the encoder writes the `%#v` debug text re-marshalled as a JSON string;
had even that marshalling failed, the fixed placeholder literal would be
written; no branch propagates a failure.  The chain of lines 77-91 is
`fallbackWith`, quantified here over the re-marshalling function so that
both of its branches are exercised; the source instantiates it with
`marshalStringO`, which always succeeds with the escaped quoted text. -/
theorem C9_fallback_chain (stack d : String) :
    (appendValueE stack (GoVal.other none d) =
      Except.ok (fallbackWith marshalStringO (debugRepr (GoVal.other none d)))) ∧
    (debugRepr (GoVal.other none d) = d) ∧
    (fallbackWith marshalStringO d = jsonQuote d) ∧
    (∀ f : String → Option String, f d = none →
      fallbackWith f d = ("\"Could not Sprintf value\"")) ∧
    (∀ (f : String → Option String) (s : String), f d = some s →
      fallbackWith f d = s) := by
  refine ⟨rfl, rfl, rfl, ?_, ?_⟩
  · intro f hf
    simp [fallbackWith, hf]
  · intro f s hf
    simp [fallbackWith, hf]

/-- Witness for C9 at a concrete input. -/
theorem C9_fallback_chain_witness :
    (appendValueE ("") (GoVal.other none ("chan int")) =
      Except.ok (fallbackWith marshalStringO
        (debugRepr (GoVal.other none ("chan int"))))) ∧
    fallbackWith (fun _ => none) ("chan int") =
      ("\"Could not Sprintf value\"") ∧
    fallbackWith (fun _ => some ("\"chan int\"")) ("chan int") =
      ("\"chan int\"") :=
  ⟨(C9_fallback_chain ("") ("chan int")).1,
   (C9_fallback_chain ("") ("chan int")).2.2.2.1 (fun _ => none) rfl,
   (C9_fallback_chain ("") ("chan int")).2.2.2.2 (fun _ => some ("\"chan int\""))
     ("\"chan int\"") rfl⟩

/-! # Claim C3: escaping of name and keys -/

/-- C3 counterexample: the claim says the encoder name and every field key
are emitted with full JSON string-escaping for every possible value.  At
the concrete key `a"` the escaped form (`"a\""`, produced by `jsonQuote`)
appears nowhere in the output, while the raw unescaped key does: `set`
writes keys verbatim (line 98), so the claim is false. -/
theorem C3_counterexample_key_not_escaped :
    ((formatE ("T") ("I") ("svc") ("S") ("m")
        [GoVal.str ("a\""), GoVal.intV 1]).map
      (fun out => hasSub out.data (jsonQuote ("a\"")).data)) =
        Except.ok false ∧
    ((formatE ("T") ("I") ("svc") ("S") ("m")
        [GoVal.str ("a\""), GoVal.intV 1]).map
      (fun out => hasSub out.data (", \"a\"\":" : String).data)) =
        Except.ok true :=
  ⟨rfl, rfl⟩

/-- C3 amended: string values — the message and every value encoded through
`json.Marshal`, including fallback text — are emitted with full JSON
string-escaping, but the encoder name and the field keys are written
verbatim, without any escaping. -/
theorem C3_amended_values_escaped_keys_verbatim :
    (∀ stack s : String,
      appendValueE stack (GoVal.str s) = Except.ok (jsonQuote s)) ∧
    (∀ (stack k : String) (v : GoVal) (enc : String),
      appendValueE stack v = Except.ok enc →
      setE stack k v = Except.ok (", \"" ++ k ++ "\":" ++ enc)) ∧
    (∀ ts lvl name stack msg out : String,
      formatE ts lvl name stack msg [] = Except.ok out →
      out = "\x7b\"_t\":\"" ++ ts ++ "\", \"_l\":\"" ++ lvl ++
        "\", \"_n\":\"" ++ name ++ "\", \"_m\":" ++ jsonQuote msg ++
        "\x7d\n") := by
  refine ⟨fun stack s => rfl, ?_, ?_⟩
  · intro stack k v enc h
    simp [setE, h, Except.map]
  · intro ts lvl name stack msg out h
    have h0 : formatE ts lvl name stack msg [] =
        Except.ok ("\x7b\"_t\":\"" ++ ts ++ "\"" ++ ", \"_l\":\"" ++ lvl ++
          "\"" ++ ", \"_n\":\"" ++ name ++ "\"" ++ ", \"_m\":" ++
          jsonQuote msg ++ "" ++ "\x7d\n") := rfl
    rw [h0] at h
    cases h
    apply string_data_eq
    simp [String.data_append]

/-- Witness for C3 amended at concrete inputs. -/
theorem C3_amended_witness :
    appendValueE ("") (GoVal.str ("x\"")) = Except.ok (jsonQuote ("x\"")) ∧
    setE ("") ("k") (GoVal.intV 7) = Except.ok (", \"k\":" ++ ("7")) ∧
    ("\x7b\"_t\":\"T\", \"_l\":\"I\", \"_n\":\"n\", \"_m\":\"m\"\x7d\n" : String) =
      "\x7b\"_t\":\"T\", \"_l\":\"I\", \"_n\":\"n\", \"_m\":" ++
        jsonQuote ("m") ++ "\x7d\n" :=
  ⟨C3_amended_values_escaped_keys_verbatim.1 ("") ("x\""),
   C3_amended_values_escaped_keys_verbatim.2.1 ("") ("k") (GoVal.intV 7) ("7") rfl,
   C3_amended_values_escaped_keys_verbatim.2.2 ("T") ("I") ("n") ("S") ("m")
     ("\x7b\"_t\":\"T\", \"_l\":\"I\", \"_n\":\"n\", \"_m\":\"m\"\x7d\n") rfl⟩

/-! # Claim C4: the imbalanced-arguments field -/

/-- C4 counterexample: the claim says the single catch-all field's value is
the raw argument sequence encoded as a JSON array for *every* odd-length
list.  When the lone argument is not structurally encodable,
`json.Marshal` fails and the fallback writes a quoted debug string, which
is the rendering of no JSON array. -/
theorem C4_counterexample_not_an_array :
    (formatFieldsE ("") [GoVal.other none ("(func literal)")] =
      Except.ok [(warnImbalancedKey,
        ("\"[]interface \x7b\x7d\x7b(func literal)\x7d\""))]) ∧
    ¬ ∃ l : List Json,
      ("\"[]interface \x7b\x7d\x7b(func literal)\x7d\"" : String) =
        render (Json.arr l) := by
  refine ⟨rfl, ?_⟩
  rintro ⟨l, hl⟩
  have hh := congrArg (fun s => s.data.head?) hl
  have harr : (render (Json.arr l)).data.head? = some ('[') := by
    show (("[" ++ renderElems l ++ "]" : String)).data.head? = some ('[')
    simp [String.data_append]
  simp only [harr] at hh
  simp at hh

/-- C4 amended: every odd-length argument list produces exactly one field,
keyed by the reserved imbalanced-arguments constant, whose value is the
whole raw argument slice passed through the value encoder — a JSON array
whenever every element is structurally encodable. -/
theorem C4_amended_imbalanced_single_field (stack : String)
    (args : List GoVal) (hodd : args.length % 2 = 1) :
    ∃ chunk, formatFieldsE stack args =
        Except.ok [(warnImbalancedKey, chunk)] ∧
      appendValueE stack (GoVal.slice args) = Except.ok chunk ∧
      ∀ js, marshalList args = some js → chunk = render (Json.arr js) := by
  have hlen : args.length > 0 := by omega
  have hne : ¬ args.length % 2 = 0 := by omega
  refine ⟨appendKind stack (GoVal.slice args), ?_, rfl, ?_⟩
  · simp [formatFieldsE, hlen, hne, fieldsForE, unwrap1]
  · intro js hjs
    simp [appendKind, marshalVal, hjs]

/-- Witness for C4 amended at a concrete input. -/
theorem C4_amended_witness :
    formatFieldsE ("") [GoVal.intV 1] =
      Except.ok [(warnImbalancedKey, ("[1]"))] ∧
    render (Json.arr [Json.num 1]) = ("[1]") := by
  obtain ⟨chunk, h1, h2, h3⟩ :=
    C4_amended_imbalanced_single_field ("") [GoVal.intV 1] (by decide)
  have hc : chunk = render (Json.arr [Json.num 1]) := h3 [Json.num 1] rfl
  refine ⟨?_, rfl⟩
  rw [h1, hc]
  rfl

/-! # Claim C5: bad keys and the field count -/

/-- C5 counterexample: the claim's field-count formula
`ceil(len(args)/2)` fails on odd-length lists: three arguments produce a
single imbalanced-arguments field, not `ceil(3/2) = 2` fields. -/
theorem C5_counterexample_count_fails_on_odd :
    ((formatFieldsE ("") [GoVal.nilI, GoVal.nilI, GoVal.nilI]).map
      List.length = Except.ok 1) ∧
    ([GoVal.nilI, GoVal.nilI, GoVal.nilI].length + 1) / 2 = 2 :=
  ⟨rfl, rfl⟩

/-- C5 amended: on *even-length* argument lists, a pair whose key position
holds a non-string or the empty string is emitted under the bad-key marker
for its positional index with its value still encoded; no pair is dropped;
and the number of emitted fields equals `len(args)/2` plus one extra
callstack field per error-typed value. -/
theorem C5_amended_even_list_fields (stack : String) (args : List GoVal)
    (l : List (String × String)) (hev : args.length % 2 = 0)
    (h : pairFieldsE stack 0 args = Except.ok l) :
    (l.length = args.length / 2 + errPairCount args) ∧
    (∀ i, keyFor i (GoVal.str ("")) = badKeyAtIndex i) ∧
    (∀ i k, (∀ s, k ≠ GoVal.str s) → keyFor i k = badKeyAtIndex i) ∧
    (∀ pre k v post, args = pre ++ k :: v :: post → pre.length % 2 = 0 →
      ∃ fs l1 l2, fieldsForE stack (keyFor pre.length k) v = Except.ok fs ∧
        fs ≠ [] ∧ l = l1 ++ fs ++ l2) := by
  refine ⟨pairFields_length stack args 0 l h, fun i => rfl, ?_, ?_⟩
  · intro i k hk
    cases k with
    | str s => exact absurd rfl (hk s)
    | _ => rfl
  · intro pre k v post hargs hpre
    subst hargs
    obtain ⟨fs, l1, l2, hf, hl⟩ :=
      pairFields_contrib stack pre 0 k v post l hpre h
    simp only [Nat.zero_add] at hf
    refine ⟨fs, l1, l2, hf, ?_, hl⟩
    intro hfs
    have hlen := fieldsForE_length stack (keyFor pre.length k) v fs hf
    rw [hfs] at hlen
    revert hlen
    generalize (match unwrap1 v with
                | some (GoVal.errV _) => 1
                | _ => 0) = w
    intro hlen
    simp at hlen
    omega

/-- Witness for C5 amended at a concrete input with a non-string key. -/
theorem C5_amended_witness :
    (([(badKeyAtIndex 0, ("true"))] : List (String × String)).length =
      [GoVal.intV 1, GoVal.boolean true].length / 2 +
        errPairCount [GoVal.intV 1, GoVal.boolean true]) ∧
    keyFor 0 (GoVal.intV 1) = badKeyAtIndex 0 := by
  obtain ⟨h1, h2, h3, h4⟩ :=
    C5_amended_even_list_fields ("") [GoVal.intV 1, GoVal.boolean true]
      [(badKeyAtIndex 0, ("true"))] (by decide) rfl
  exact ⟨h1, h3 0 (GoVal.intV 1) (fun s hs => GoVal.noConfusion hs)⟩

/-! # Claim C6: error values and the callstack sibling -/

/-- C6: whenever a value implementing `error` (with kind outside the
primitive cases) sits in a value slot of an even-length argument list, the
emitted fields contain both its message as a JSON string under the pair's
key and a sibling field under the reserved callstack key holding the
captured stack, in the same record; the rendered byte stream is exactly
the rendering of those fields. -/
theorem C6_error_value_emits_callstack_sibling (stack : String)
    (args : List GoVal) (l : List (String × String)) (pre post : List GoVal)
    (k m : String) (hargs : args = pre ++ GoVal.str k :: GoVal.errV m :: post)
    (hpre : pre.length % 2 = 0) (hk : ¬ k = (""))
    (h : pairFieldsE stack 0 args = Except.ok l)
    (heven : args.length % 2 = 0) :
    ((k, jsonQuote m) ∈ l ∧ (callstackKey, jsonQuote stack) ∈ l) ∧
    fieldsE stack args = Except.ok (renderFields l) := by
  subst hargs
  obtain ⟨fs, l1, l2, hf, hl⟩ :=
    pairFields_contrib stack pre 0 (GoVal.str k) (GoVal.errV m) post l hpre h
  simp only [Nat.zero_add] at hf
  have hkey : keyFor pre.length (GoVal.str k) = k := by
    simp [keyFor, hk]
  rw [hkey] at hf
  have hrfl : fieldsForE stack k (GoVal.errV m) =
      Except.ok [(k, jsonQuote m), (callstackKey, jsonQuote stack)] := rfl
  rw [hrfl] at hf
  cases hf
  constructor
  · constructor
    · rw [hl]; simp
    · rw [hl]; simp
  · have hpos : (pre ++ GoVal.str k :: GoVal.errV m :: post).length > 0 := by
      simp
    rw [fieldsE_eq_formatFields]
    have hff : formatFieldsE stack (pre ++ GoVal.str k :: GoVal.errV m :: post) =
        Except.ok l := by
      unfold formatFieldsE
      rw [if_pos hpos, if_pos heven]
      exact h
    rw [hff]
    rfl

/-- Witness for C6 at a concrete input. -/
theorem C6_witness :
    ((("err" : String), ("\"boom\"" : String)) ∈
        ([(("err"), ("\"boom\"")), (callstackKey, ("\"S\""))] :
          List (String × String)) ∧
      ((callstackKey : String), ("\"S\"" : String)) ∈
        ([(("err"), ("\"boom\"")), (callstackKey, ("\"S\""))] :
          List (String × String))) ∧
    fieldsE ("S") [GoVal.str ("err"), GoVal.errV ("boom")] =
      Except.ok (renderFields
        [(("err"), ("\"boom\"")), (callstackKey, ("\"S\""))]) :=
  C6_error_value_emits_callstack_sibling ("S")
    [GoVal.str ("err"), GoVal.errV ("boom")]
    [(("err"), ("\"boom\"")), (callstackKey, ("\"S\""))]
    [] [] ("err") ("boom") rfl (by decide) (by decide) rfl (by decide)

/-! # String escaping round-trip -/

theorem escapeChar_ne_nil (c : Char) : escapeChar c ≠ [] := by
  unfold escapeChar
  split_ifs <;> simp

theorem escapeList_length_ge (l : List Char) :
    l.length ≤ (escapeList l).length := by
  induction l with
  | nil => simp [escapeList]
  | cons c cs ih =>
    have h1 : 0 < (escapeChar c).length :=
      List.length_pos.mpr (escapeChar_ne_nil c)
    simp only [escapeList, List.length_append, List.length_cons]
    omega

theorem escapeList_cons (c : Char) (cs : List Char)
    (h : escapeList (c :: cs) = c :: cs) :
    escapeChar c = [c] ∧ escapeList cs = cs := by
  have hList : escapeChar c ++ escapeList cs = c :: cs := h
  cases hec : escapeChar c with
  | nil => exact absurd hec (escapeChar_ne_nil c)
  | cons e es =>
    rw [hec] at hList
    simp only [List.cons_append, List.cons.injEq] at hList
    obtain ⟨he, hrest⟩ := hList
    have hlen := escapeList_length_ge cs
    have hlen2 := congrArg List.length hrest
    simp only [List.length_append] at hlen2
    have hes : es = [] := by
      have : es.length = 0 := by omega
      exact List.eq_nil_of_length_eq_zero this
    refine ⟨?_, by simpa [hes] using hrest⟩
    simp [hec, hes, he]

theorem escapeChar_self (c : Char) (h : escapeChar c = [c]) :
    ¬ c = '"' ∧ ¬ c = '\\' ∧ ¬ c.toNat < 32 := by
  unfold escapeChar at h
  split_ifs at h with h1 h2 h3 h4 h5 h6 h7 h8
  · simp at h
  · simp at h
  · simp at h
  · simp at h
  · simp at h
  · simp at h
  · simp at h
  · simp at h
  · exact ⟨h1, h2, fun hc => h6 (Or.inl hc)⟩

theorem parseStringBody_quote (rest : List Char) :
    parseStringBody ('"' :: rest) = some ([], rest) := by
  unfold parseStringBody
  rw [if_pos rfl]

theorem parseStringBody_default (c : Char) (cs : List Char)
    (h1 : ¬ c = '"') (h2 : ¬ c = '\\') (h3 : ¬ c.toNat < 32) :
    parseStringBody (c :: cs) =
      (parseStringBody cs).map (fun p => (c :: p.1, p.2)) := by
  conv_lhs => rw [parseStringBody.eq_def]
  simp [h1, h2, h3]

theorem parseStringBody_clean :
    ∀ (l : List Char), escapeList l = l →
    ∀ rest, parseStringBody (l ++ '"' :: rest) = some (l, rest)
| [], _, rest => by
  simpa using parseStringBody_quote rest
| c :: cs, h, rest => by
  obtain ⟨hc, hcs⟩ := escapeList_cons c cs h
  obtain ⟨h1, h2, h3⟩ := escapeChar_self c hc
  have ih := parseStringBody_clean cs hcs rest
  rw [List.cons_append, parseStringBody_default c _ h1 h2 h3, ih]
  rfl

theorem hexVal_hexChar (d : Nat) (h : d < 16) : hexVal (hexChar d) = some d := by
  interval_cases d <;> decide

theorem parseStringBody_unicode (d1 d2 d3 d4 : Nat)
    (h1 : d1 < 16) (h2 : d2 < 16) (h3 : d3 < 16) (h4 : d4 < 16)
    (hvalid : (d1 * 4096 + d2 * 256 + d3 * 16 + d4).isValidChar)
    (Y : List Char) :
    parseStringBody
      ('\\' :: 'u' :: hexChar d1 :: hexChar d2 :: hexChar d3 :: hexChar d4 :: Y) =
      (parseStringBody Y).map
        (fun p => (Char.ofNat (d1 * 4096 + d2 * 256 + d3 * 16 + d4) :: p.1, p.2)) := by
  have e0 : parseStringBody
      ('\\' :: 'u' :: hexChar d1 :: hexChar d2 :: hexChar d3 :: hexChar d4 :: Y) =
      (match hexVal (hexChar d1), hexVal (hexChar d2), hexVal (hexChar d3),
             hexVal (hexChar d4) with
       | some a, some b, some c, some d =>
         let code := a * 4096 + b * 256 + c * 16 + d
         if h : code.isValidChar then
           (parseStringBody Y).map (fun p => (Char.ofNatAux code h :: p.1, p.2))
         else none
       | _, _, _, _ => none) := rfl
  rw [e0, hexVal_hexChar d1 h1, hexVal_hexChar d2 h2, hexVal_hexChar d3 h3,
    hexVal_hexChar d4 h4]
  simp only []
  rw [dif_pos hvalid]
  have : Char.ofNatAux (d1 * 4096 + d2 * 256 + d3 * 16 + d4) hvalid =
      Char.ofNat (d1 * 4096 + d2 * 256 + d3 * 16 + d4) :=
    (dif_pos hvalid).symm
  rw [this]

theorem parseStringBody_escape :
    ∀ (l : List Char) (rest : List Char),
    parseStringBody (escapeList l ++ '"' :: rest) = some (l, rest)
| [], rest => by
  simpa using parseStringBody_quote rest
| c :: cs, rest => by
  have ih := parseStringBody_escape cs rest
  show parseStringBody ((escapeChar c ++ escapeList cs) ++ '"' :: rest) =
    some (c :: cs, rest)
  rw [List.append_assoc]
  unfold escapeChar
  split_ifs with h1 h2 h3 h4 h5 h6 h7 h8
  · subst h1
    have e : parseStringBody ('\\' :: '"' :: (escapeList cs ++ '"' :: rest)) =
        (parseStringBody (escapeList cs ++ '"' :: rest)).map
          (fun p => ('"' :: p.1, p.2)) := rfl
    simpa [e, ih] using rfl
  · subst h2
    have e : parseStringBody ('\\' :: '\\' :: (escapeList cs ++ '"' :: rest)) =
        (parseStringBody (escapeList cs ++ '"' :: rest)).map
          (fun p => ('\\' :: p.1, p.2)) := rfl
    simpa [e, ih] using rfl
  · subst h3
    have e : parseStringBody ('\\' :: 'n' :: (escapeList cs ++ '"' :: rest)) =
        (parseStringBody (escapeList cs ++ '"' :: rest)).map
          (fun p => ('\n' :: p.1, p.2)) := rfl
    simpa [e, ih] using rfl
  · subst h4
    have e : parseStringBody ('\\' :: 'r' :: (escapeList cs ++ '"' :: rest)) =
        (parseStringBody (escapeList cs ++ '"' :: rest)).map
          (fun p => ('\r' :: p.1, p.2)) := rfl
    simpa [e, ih] using rfl
  · subst h5
    have e : parseStringBody ('\\' :: 't' :: (escapeList cs ++ '"' :: rest)) =
        (parseStringBody (escapeList cs ++ '"' :: rest)).map
          (fun p => ('\t' :: p.1, p.2)) := rfl
    simpa [e, ih] using rfl
  · -- control characters and <, >, &
    have htb : c.toNat < 256 := by
      rcases h6 with hlt | hc | hc | hc
      · omega
      · subst hc; decide
      · subst hc; decide
      · subst hc; decide
    have hd3 : c.toNat / 16 < 16 := by omega
    have hd4 : c.toNat % 16 < 16 := by omega
    have hcode : (0 : Nat) * 4096 + 0 * 256 + (c.toNat / 16) * 16 + c.toNat % 16 =
        c.toNat := by
      have := Nat.div_add_mod c.toNat 16
      omega
    have hvalid : ((0 : Nat) * 4096 + 0 * 256 + (c.toNat / 16) * 16 +
        c.toNat % 16).isValidChar := by
      rw [hcode]
      unfold Nat.isValidChar
      omega
    have h0 : ('0' : Char) = hexChar 0 := rfl
    have hu := parseStringBody_unicode 0 0 (c.toNat / 16) (c.toNat % 16)
      (by omega) (by omega) hd3 hd4 hvalid (escapeList cs ++ '"' :: rest)
    simp only [List.cons_append, List.nil_append, h0]
    rw [hu, ih]
    simp only [Option.map_some']
    rw [hcode, Char.ofNat_toNat]
  · -- U+2028
    have h0 : ('2' : Char) = hexChar 2 := rfl
    have h0b : ('0' : Char) = hexChar 0 := rfl
    have h0c : ('8' : Char) = hexChar 8 := rfl
    have hvalid : ((2 : Nat) * 4096 + 0 * 256 + 2 * 16 + 8).isValidChar := by
      unfold Nat.isValidChar
      omega
    have hu := parseStringBody_unicode 2 0 2 8 (by omega) (by omega) (by omega)
      (by omega) hvalid (escapeList cs ++ '"' :: rest)
    simp only [List.cons_append, List.nil_append, h0, h0b, h0c]
    rw [hu, ih]
    simp only [Option.map_some']
    have : Char.ofNat (2 * 4096 + 0 * 256 + 2 * 16 + 8) = c := by
      have : Char.ofNat c.toNat = c := Char.ofNat_toNat c
      rw [h7] at this
      simpa using this
    rw [this]
  · -- U+2029
    have h0 : ('2' : Char) = hexChar 2 := rfl
    have h0b : ('0' : Char) = hexChar 0 := rfl
    have h0c : ('9' : Char) = hexChar 9 := rfl
    have hvalid : ((2 : Nat) * 4096 + 0 * 256 + 2 * 16 + 9).isValidChar := by
      unfold Nat.isValidChar
      omega
    have hu := parseStringBody_unicode 2 0 2 9 (by omega) (by omega) (by omega)
      (by omega) hvalid (escapeList cs ++ '"' :: rest)
    simp only [List.cons_append, List.nil_append, h0, h0b, h0c]
    rw [hu, ih]
    simp only [Option.map_some']
    have : Char.ofNat (2 * 4096 + 0 * 256 + 2 * 16 + 9) = c := by
      have : Char.ofNat c.toNat = c := Char.ofNat_toNat c
      rw [h8] at this
      simpa using this
    rw [this]
  · -- plain character
    have hnot : ¬ c.toNat < 32 := fun hc => h6 (Or.inl hc)
    rw [List.cons_append, parseStringBody_default c _ h1 h2 hnot]
    simp only [List.nil_append]
    rw [ih]
    rfl

/-! # Number parsing round-trip -/

theorem digit_toNat_bounds (c : Char) (h : c.isDigit = true) :
    48 ≤ c.toNat ∧ c.toNat ≤ 57 := by
  simp [Char.isDigit] at h
  exact h

theorem digit_facts (c : Char) (h : c.isDigit = true) :
    ¬ c = '-' ∧ ¬ c = '.' ∧ ¬ c = 'e' ∧ ¬ c = 'E' ∧ ¬ c = '"' := by
  obtain ⟨h1, h2⟩ := digit_toNat_bounds c h
  refine ⟨?_, ?_, ?_, ?_, ?_⟩ <;> intro hc <;> subst hc <;> simp_all


theorem goodTail_facts (t : List Char) (h : goodTail t = true) :
    ∀ c, t.head? = some c →
      c.isDigit = false ∧ ¬ c = '.' ∧ ¬ c = 'e' ∧ ¬ c = 'E' ∧
      ¬ c = '+' ∧ ¬ c = '-' := by
  intro c hc
  cases t with
  | nil => simp at hc
  | cons x t' =>
    simp at hc
    subst hc
    simp [goodTail] at h
    tauto

theorem takeDigits_cons_digit (c : Char) (cs : List Char)
    (h : c.isDigit = true) :
    takeDigits (c :: cs) = (c :: (takeDigits cs).1, (takeDigits cs).2) := by
  simp [takeDigits, h]

theorem takeDigits_cons_nondigit (c : Char) (cs : List Char)
    (h : c.isDigit = false) :
    takeDigits (c :: cs) = ([], c :: cs) := by
  simp [takeDigits, h]

theorem takeDigits_split :
    ∀ (ds rest : List Char), (∀ c ∈ ds, c.isDigit = true) →
    (∀ c, rest.head? = some c → c.isDigit = false) →
    takeDigits (ds ++ rest) = (ds, rest)
| [], rest, _, hr => by
  cases rest with
  | nil => rfl
  | cons c t =>
    have := hr c (by simp)
    simpa using takeDigits_cons_nondigit c t this
| d :: ds, rest, hds, hr => by
  have hd : d.isDigit = true := hds d (by simp)
  have ih := takeDigits_split ds rest (fun c hc => hds c (by simp [hc])) hr
  simp [takeDigits_cons_digit d _ hd, ih]

theorem takeDigits_extend_ne :
    ∀ (l t : List Char) (d : List Char) (c : Char) (r : List Char),
    takeDigits l = (d, c :: r) →
    takeDigits (l ++ t) = (d, c :: (r ++ t))
| [], t, d, c, r => by
  intro h
  simp [takeDigits] at h
| x :: l', t, d, c, r => by
  intro h
  by_cases hx : x.isDigit
  · rw [takeDigits_cons_digit x l' hx] at h
    have h1 : x :: (takeDigits l').1 = d := congrArg Prod.fst h
    have h2 : (takeDigits l').2 = c :: r := congrArg Prod.snd h
    have hpair : takeDigits l' = ((takeDigits l').1, c :: r) := by rw [← h2]
    have ih := takeDigits_extend_ne l' t _ c r hpair
    rw [List.cons_append, takeDigits_cons_digit x _ hx]
    simp [ih, ← h1]
  · have hx' : x.isDigit = false := by simpa using hx
    rw [takeDigits_cons_nondigit x l' hx'] at h
    have h1 : ([] : List Char) = d := congrArg Prod.fst h
    have h2 : x :: l' = c :: r := congrArg Prod.snd h
    simp only [List.cons.injEq] at h2
    obtain ⟨hc, hr⟩ := h2
    subst hc hr
    rw [List.cons_append, takeDigits_cons_nondigit x _ hx', ← h1]

theorem takeDigits_extend_nil :
    ∀ (l t : List Char) (d : List Char),
    takeDigits l = (d, []) →
    (∀ c, t.head? = some c → c.isDigit = false) →
    takeDigits (l ++ t) = (d, t)
| [], t, d => by
  intro h ht
  have hd : d = [] := by
    have := congrArg Prod.fst h
    simpa [takeDigits] using this.symm
  subst hd
  cases t with
  | nil => rfl
  | cons c t' =>
    have := ht c (by simp)
    simpa using takeDigits_cons_nondigit c t' this
| x :: l', t, d => by
  intro h ht
  by_cases hx : x.isDigit
  · rw [takeDigits_cons_digit x l' hx] at h
    have h1 : x :: (takeDigits l').1 = d := congrArg Prod.fst h
    have h2 : (takeDigits l').2 = ([] : List Char) := congrArg Prod.snd h
    have hpair : takeDigits l' = ((takeDigits l').1, []) := by rw [← h2]
    have ih := takeDigits_extend_nil l' t _ hpair ht
    rw [List.cons_append, takeDigits_cons_digit x _ hx]
    simp [ih, ← h1]
  · have hx' : x.isDigit = false := by simpa using hx
    rw [takeDigits_cons_nondigit x l' hx'] at h
    have := congrArg Prod.snd h
    simp at this

theorem parseExpPart_no_exp (l : List Char)
    (h : ∀ c, l.head? = some c → ¬ (c = 'e' ∨ c = 'E')) :
    parseExpPart l = some ([], l) := by
  cases l with
  | nil => rfl
  | cons c cs =>
    have hc := h c (by simp)
    conv_lhs => rw [parseExpPart.eq_def]
    simp [hc]

theorem parseExpPart_extend (l t : List Char) (es : List Char)
    (h : parseExpPart l = some (es, []))
    (ht : ∀ c, t.head? = some c →
      c.isDigit = false ∧ ¬ c = 'e' ∧ ¬ c = 'E') :
    parseExpPart (l ++ t) = some (es, t) := by
  have htd : ∀ c, t.head? = some c → c.isDigit = false :=
    fun c hc => (ht c hc).1
  cases l with
  | nil =>
    simp only [parseExpPart] at h
    have hes : es = [] := by
      have := congrArg (fun p => Prod.fst <$> p) h
      simpa using this.symm
    subst hes
    simp only [List.nil_append]
    exact parseExpPart_no_exp t
      (fun c hc => fun hor => by
        obtain ⟨_, h2, h3⟩ := ht c hc
        rcases hor with h' | h'
        · exact h2 h'
        · exact h3 h')
  | cons c l' =>
    by_cases he : c = 'e' ∨ c = 'E'
    · cases l' with
      | nil =>
        conv at h => rw [parseExpPart.eq_def]
        simp [he] at h
      | cons s l'' =>
        by_cases hs : s = '+' ∨ s = '-'
        · conv at h => rw [parseExpPart.eq_def]
          simp only [if_pos he, if_pos hs] at h
          by_cases hd : (takeDigits l'').1 = []
          · rw [if_pos hd] at h
            simp at h
          · rw [if_neg hd] at h
            simp only [Option.some.injEq, Prod.mk.injEq] at h
            obtain ⟨hes, hrem⟩ := h
            have hpair : takeDigits l'' = ((takeDigits l'').1, []) := by
              rw [← hrem]
            have hext := takeDigits_extend_nil l'' t _ hpair htd
            conv_lhs => rw [List.cons_append, List.cons_append,
              parseExpPart.eq_def]
            simp only [if_pos he, if_pos hs, hext]
            rw [if_neg hd, hes]
        · conv at h => rw [parseExpPart.eq_def]
          simp only [if_pos he, if_neg hs] at h
          by_cases hd : (takeDigits (s :: l'')).1 = []
          · rw [if_pos hd] at h
            simp at h
          · rw [if_neg hd] at h
            simp only [Option.some.injEq, Prod.mk.injEq] at h
            obtain ⟨hes, hrem⟩ := h
            have hpair : takeDigits (s :: l'') = ((takeDigits (s :: l'')).1, []) := by
              rw [← hrem]
            have hext := takeDigits_extend_nil (s :: l'') t _ hpair htd
            rw [List.cons_append] at hext
            conv_lhs => rw [List.cons_append, parseExpPart.eq_def]
            simp only [if_pos he, if_neg hs, List.cons_append, hext]
            rw [if_neg hd, hes]
    · conv at h => rw [parseExpPart.eq_def]
      simp only [if_neg he] at h
      simp at h

theorem natDigits_head_not_dash (n : Nat) :
    ¬ (natDigits n).head? = some ('-') := by
  intro h
  cases hd : natDigits n with
  | nil => rw [hd] at h; simp at h
  | cons d ds =>
    rw [hd] at h
    simp at h
    have hdig : d.isDigit = true := natDigits_digits n d (by rw [hd]; simp)
    exact (digit_facts d hdig).1 h

theorem takeDigits_natDigits (n : Nat) :
    takeDigits (natDigits n) = (natDigits n, []) := by
  have := takeDigits_split (natDigits n) [] (natDigits_digits n)
    (fun c hc => by simp at hc)
  simpa using this

theorem parseNumber_natDigits (n : Nat) :
    parseNumber (natDigits n) = some (Json.num (Int.ofNat n), []) := by
  have hdash := natDigits_head_not_dash n
  have hne : natDigits n ≠ [] := natDigitsAux_ne_nil (n + 1) n (by omega)
  simp only [parseNumber, if_neg hdash, parseNumberCore, takeDigits_natDigits]
  rw [if_neg hne]
  have hdot : ¬ (([] : List Char).head? = some ('.')) := by simp
  rw [if_neg hdot]
  have hexp : parseExpPart ([] : List Char) = some ([], []) := rfl
  rw [hexp]
  simp [natDigits_value]

theorem parseNumber_formatInt (n : Int) :
    parseNumber (formatInt n).data = some (Json.num n, []) := by
  cases n with
  | ofNat m => exact parseNumber_natDigits m
  | negSucc m =>
    have hdata : (formatInt (Int.negSucc m)).data = '-' :: natDigits (m + 1) := by
      show (("-" : String) ++ formatNat (m + 1)).data = _
      simp [String.data_append, formatNat]
    rw [hdata]
    have hdash : (('-' :: natDigits (m + 1)).head? = some ('-')) := by simp
    simp only [parseNumber, if_pos hdash, List.tail_cons, parseNumberCore,
      takeDigits_natDigits]
    have hne : natDigits (m + 1) ≠ [] :=
      natDigitsAux_ne_nil (m + 2) (m + 1) (by omega)
    rw [if_neg hne]
    have hdot : ¬ (([] : List Char).head? = some ('.')) := by simp
    rw [if_neg hdot]
    have hexp : parseExpPart ([] : List Char) = some ([], []) := rfl
    rw [hexp]
    have hsgn : (['-'] : List Char) ≠ [] := by simp
    simp only [if_neg hsgn, natDigits_value]
    have : -(Int.ofNat (m + 1)) = Int.negSucc m := by
      rw [Int.negSucc_eq]
      simp
    rw [this]

theorem parseNumberCore_extend (sgn cs1 t : List Char) (j : Json)
    (h : parseNumberCore sgn cs1 = some (j, [])) (ht : goodTail t = true) :
    parseNumberCore sgn (cs1 ++ t) = some (j, t) := by
  have htf := goodTail_facts t ht
  have htd : ∀ c, t.head? = some c → c.isDigit = false :=
    fun c hc => (htf c hc).1
  have hte : ∀ c, t.head? = some c →
      c.isDigit = false ∧ ¬ c = 'e' ∧ ¬ c = 'E' :=
    fun c hc => ⟨(htf c hc).1, (htf c hc).2.2.1, (htf c hc).2.2.2.1⟩
  have htnoexp : ∀ c, t.head? = some c → ¬ (c = 'e' ∨ c = 'E') := by
    intro c hc hor
    rcases hor with h' | h'
    · exact (htf c hc).2.2.1 h'
    · exact (htf c hc).2.2.2.1 h'
  by_cases hd1 : (takeDigits cs1).1 = []
  · simp only [parseNumberCore, if_pos hd1] at h
    simp at h
  · cases hr1 : (takeDigits cs1).2 with
    | nil =>
      have hpair : takeDigits cs1 = ((takeDigits cs1).1, []) := by rw [← hr1]
      have hext := takeDigits_extend_nil cs1 t _ hpair htd
      simp only [parseNumberCore, hr1, hext, if_neg hd1] at h ⊢
      have hdot1 : ¬ (([] : List Char).head? = some ('.')) := by simp
      rw [if_neg hdot1] at h
      have hdot2 : ¬ (t.head? = some ('.')) := by
        intro hc
        cases t with
        | nil => simp at hc
        | cons c t' =>
          simp at hc
          exact (htf c (by simp)).2.1 hc
      rw [if_neg hdot2]
      have hexp1 : parseExpPart ([] : List Char) = some ([], []) := rfl
      rw [hexp1] at h
      have hexp2 : parseExpPart t = some ([], t) :=
        parseExpPart_no_exp t htnoexp
      rw [hexp2]
      by_cases hsgn : sgn = []
      · rw [if_pos hsgn] at h ⊢
        simp only [Option.some.injEq, Prod.mk.injEq] at h ⊢
        exact ⟨h.1, trivial⟩
      · rw [if_neg hsgn] at h ⊢
        simp only [Option.some.injEq, Prod.mk.injEq] at h ⊢
        exact ⟨h.1, trivial⟩
    | cons c r' =>
      have hpair : takeDigits cs1 = ((takeDigits cs1).1, c :: r') := by
        rw [← hr1]
      have hext := takeDigits_extend_ne cs1 t _ c r' hpair
      simp only [parseNumberCore, hr1, hext, if_neg hd1] at h ⊢
      by_cases hc : c = '.'
      · subst hc
        have hdot : (('.' :: r').head? = some ('.')) := by simp
        have hdot2 : (('.' :: (r' ++ t)).head? = some ('.')) := by simp
        rw [if_pos hdot, List.tail_cons] at h
        rw [if_pos hdot2, List.tail_cons]
        by_cases hd2 : (takeDigits r').1 = []
        · rw [if_pos hd2] at h
          simp at h
        · rw [if_neg hd2] at h
          cases hr2 : (takeDigits r').2 with
          | nil =>
            have hpair2 : takeDigits r' = ((takeDigits r').1, []) := by
              rw [← hr2]
            have hext2 := takeDigits_extend_nil r' t _ hpair2 htd
            rw [hr2] at h
            have hexp1 : parseExpPart ([] : List Char) = some ([], []) := rfl
            rw [hexp1] at h
            simp only [Option.some.injEq, Prod.mk.injEq] at h
            rw [hext2, if_neg hd2]
            have hexp2 : parseExpPart t = some ([], t) :=
              parseExpPart_no_exp t htnoexp
            rw [hexp2]
            simp [← h.1]
          | cons c2 r2' =>
            have hpair2 : takeDigits r' = ((takeDigits r').1, c2 :: r2') := by
              rw [← hr2]
            have hext2 := takeDigits_extend_ne r' t _ c2 r2' hpair2
            rw [hr2] at h
            cases hexp : parseExpPart (c2 :: r2') with
            | none => rw [hexp] at h; simp at h
            | some p3 =>
              rw [hexp] at h
              simp only [Option.some.injEq, Prod.mk.injEq] at h
              obtain ⟨hj, hrem⟩ := h
              have hp3 : parseExpPart (c2 :: r2') = some (p3.1, []) := by
                rw [hexp, ← hrem]
              have hexp2 := parseExpPart_extend (c2 :: r2') t p3.1 hp3 hte
              rw [List.cons_append] at hexp2
              rw [hext2, if_neg hd2, hexp2]
              simp [← hj]
      · have hnodot1 : ¬ ((c :: r').head? = some ('.')) := by
          simp only [List.head?_cons, Option.some.injEq]
          exact hc
        have hnodot2 : ¬ ((c :: (r' ++ t)).head? = some ('.')) := by
          simp only [List.head?_cons, Option.some.injEq]
          exact hc
        rw [if_neg hnodot1] at h
        rw [if_neg hnodot2]
        cases hexp : parseExpPart (c :: r') with
        | none => rw [hexp] at h; simp at h
        | some p3 =>
          rw [hexp] at h
          cases hp31 : p3.1 with
          | nil =>
            -- integer branch: the remainder is c :: r' ≠ [], contradiction
            have hp3e : p3 = (([] : List Char), p3.2) := by rw [← hp31]
            rw [hp3e] at h
            by_cases hsgn : sgn = []
            · rw [if_pos hsgn] at h
              simp at h
            · rw [if_neg hsgn] at h
              simp at h
          | cons e es' =>
            have hp3e : p3 = (e :: es', p3.2) := by rw [← hp31]
            rw [hp3e] at h
            simp only [Option.some.injEq, Prod.mk.injEq] at h
            obtain ⟨hj, hrem⟩ := h
            have hp3full : parseExpPart (c :: r') = some (e :: es', []) := by
              rw [hexp, hp3e, hrem]
            have hexp2 := parseExpPart_extend (c :: r') t (e :: es') hp3full hte
            rw [List.cons_append] at hexp2
            rw [hexp2]
            simp [← hj]

theorem parseNumber_extend (cs t : List Char) (j : Json)
    (h : parseNumber cs = some (j, [])) (ht : goodTail t = true) :
    parseNumber (cs ++ t) = some (j, t) := by
  cases cs with
  | nil =>
    simp only [parseNumber] at h
    simp only [List.head?_nil, parseNumberCore, takeDigits] at h
    simp at h
  | cons c0 cs' =>
    have hhead : ((c0 :: cs') ++ t).head? = (c0 :: cs').head? := by simp
    by_cases hdash : (c0 :: cs').head? = some ('-')
    · simp only [parseNumber, if_pos hdash] at h
      rw [List.cons_append]
      have hdash2 : ((c0 :: (cs' ++ t)).head? = some ('-')) := by
        simp at hdash ⊢
        exact hdash
      simp only [parseNumber, if_pos hdash2, List.tail_cons] at *
      exact parseNumberCore_extend ['-'] cs' t j h ht
    · simp only [parseNumber, if_neg hdash] at h
      rw [List.cons_append]
      have hdash2 : ¬ ((c0 :: (cs' ++ t)).head? = some ('-')) := by
        simp at hdash ⊢
        exact hdash
      simp only [parseNumber, if_neg hdash2] at *
      have := parseNumberCore_extend [] (c0 :: cs') t j h ht
      rw [List.cons_append] at this
      exact this

theorem isFltShape_parse (s : String) (hs : isFltShape s = true) :
    parseNumber s.data = some (Json.flt s, []) := by
  unfold isFltShape at hs
  cases hp : parseNumber s.data with
  | none => rw [hp] at hs; simp at hs
  | some p =>
    rw [hp] at hs
    obtain ⟨j, rem⟩ := p
    cases j with
    | flt t =>
      cases rem with
      | nil =>
        simp only [] at hs
        have := eq_of_beq hs
        rw [this]
      | cons c r => simp at hs
    | null => simp at hs
    | bool b => simp at hs
    | num n => simp at hs
    | str s2 => simp at hs
    | arr l => simp at hs
    | obj es => simp at hs

theorem parseNumber_int_tail (n : Int) (t : List Char)
    (ht : goodTail t = true) :
    parseNumber ((formatInt n).data ++ t) = some (Json.num n, t) :=
  parseNumber_extend _ t _ (parseNumber_formatInt n) ht

theorem parseNumber_flt_tail (s : String) (t : List Char)
    (hs : isFltShape s = true) (ht : goodTail t = true) :
    parseNumber (s.data ++ t) = some (Json.flt s, t) :=
  parseNumber_extend _ t _ (isFltShape_parse s hs) ht

theorem parseNumberCore_shape (sgn l : List Char) (p : Json × List Char)
    (h : parseNumberCore sgn l = some p) :
    ∃ c r, l = c :: r ∧ c.isDigit = true := by
  cases l with
  | nil =>
    simp [parseNumberCore, takeDigits] at h
  | cons c r =>
    by_cases hc : c.isDigit
    · exact ⟨c, r, rfl, hc⟩
    · have hc' : c.isDigit = false := by simpa using hc
      rw [parseNumberCore, takeDigits_cons_nondigit c r hc'] at h
      simp at h

theorem parseNumber_head (cs : List Char) (p : Json × List Char)
    (h : parseNumber cs = some p) :
    ∃ c r, cs = c :: r ∧ (c = '-' ∨ c.isDigit = true) := by
  unfold parseNumber at h
  by_cases hd : cs.head? = some ('-')
  · cases cs with
    | nil => simp at hd
    | cons c r =>
      simp at hd
      exact ⟨c, r, rfl, Or.inl hd⟩
  · rw [if_neg hd] at h
    obtain ⟨c, r, hl, hdig⟩ := parseNumberCore_shape [] cs p h
    exact ⟨c, r, hl, Or.inr hdig⟩

/-- The first character of a rendered well-formed document, used to show
that the parser's whitespace skipping and dispatch land in the right
branch: it is never whitespace, never a closing bracket and never a
closing brace. -/
theorem render_head (j : Json) (hwf : wfJ j = true) :
    ∃ c cs, (render j).data = c :: cs ∧ isWsChar c = false ∧
      ¬ c = ']' ∧ ¬ c = '\x7d' := by
  cases j with
  | null => exact ⟨'n', _, rfl, rfl, by decide, by decide⟩
  | bool b =>
    cases b with
    | false => exact ⟨'f', _, rfl, rfl, by decide, by decide⟩
    | true => exact ⟨'t', _, rfl, rfl, by decide, by decide⟩
  | num n =>
    cases n with
    | ofNat m =>
      obtain ⟨d, ds, hds⟩ : ∃ d ds, natDigits m = d :: ds := by
        cases h : natDigits m with
        | nil => exact absurd h (natDigitsAux_ne_nil (m + 1) m (by omega))
        | cons d ds => exact ⟨d, ds, rfl⟩
      have hd : d.isDigit = true := natDigits_digits m d (by rw [hds]; simp)
      obtain ⟨hb1, hb2⟩ := digit_toNat_bounds d hd
      refine ⟨d, ds, ?_, ?_, ?_, ?_⟩
      · show (formatNat m).data = d :: ds
        simp [formatNat, hds]
      · simp [isWsChar]
        refine ⟨?_, ?_, ?_, ?_⟩ <;> intro hc <;> subst hc <;> simp_all
      · intro hc; subst hc; simp_all
      · intro hc; subst hc; simp_all
    | negSucc m =>
      refine ⟨'-', (formatNat (m + 1)).data, ?_, rfl, by decide, by decide⟩
      show (("-" : String) ++ formatNat (m + 1)).data = _
      simp [String.data_append]
  | flt s =>
    have hp := isFltShape_parse s hwf
    obtain ⟨c, r, hl, hc⟩ := parseNumber_head s.data _ hp
    refine ⟨c, r, hl, ?_, ?_, ?_⟩
    · rcases hc with hc | hc
      · subst hc; rfl
      · obtain ⟨hb1, hb2⟩ := digit_toNat_bounds c hc
        simp [isWsChar]
        refine ⟨?_, ?_, ?_, ?_⟩ <;> intro hcc <;> subst hcc <;> simp_all
    · rcases hc with hc | hc
      · subst hc; decide
      · obtain ⟨hb1, hb2⟩ := digit_toNat_bounds c hc
        intro hcc; subst hcc; simp_all
    · rcases hc with hc | hc
      · subst hc; decide
      · obtain ⟨hb1, hb2⟩ := digit_toNat_bounds c hc
        intro hcc; subst hcc; simp_all
  | str s => exact ⟨'"', _, rfl, rfl, by decide, by decide⟩
  | arr l =>
    refine ⟨'[', (renderElems l ++ "]" : String).data, ?_, rfl, by decide,
      by decide⟩
    show (("[" : String) ++ renderElems l ++ "]").data = _
    simp [String.data_append]
  | obj es =>
    refine ⟨'\x7b', (renderMembers es ++ "\x7d" : String).data, ?_, rfl,
      by decide, by decide⟩
    show (("\x7b" : String) ++ renderMembers es ++ "\x7d").data = _
    simp [String.data_append]

theorem skipWs_cons_not_ws (c : Char) (cs : List Char)
    (h : isWsChar c = false) : skipWs (c :: cs) = c :: cs := by
  simp [skipWs, h]

theorem skipWs_cons_ws (c : Char) (cs : List Char)
    (h : isWsChar c = true) : skipWs (c :: cs) = skipWs cs := by
  simp [skipWs, h]

theorem number_head_facts (c : Char) (hc : c = '-' ∨ c.isDigit = true) :
    ¬ c = 'n' ∧ ¬ c = 't' ∧ ¬ c = 'f' ∧ ¬ c = '"' ∧ ¬ c = '\x7b' ∧
      ¬ c = '[' ∧ isWsChar c = false := by
  rcases hc with hc | hc
  · subst hc; exact ⟨by decide, by decide, by decide, by decide, by decide,
      by decide, by decide⟩
  · obtain ⟨hb1, hb2⟩ := digit_toNat_bounds c hc
    refine ⟨?_, ?_, ?_, ?_, ?_, ?_, ?_⟩
    · intro h; subst h; simp_all
    · intro h; subst h; simp_all
    · intro h; subst h; simp_all
    · intro h; subst h; simp_all
    · intro h; subst h; simp_all
    · intro h; subst h; simp_all
    · simp [isWsChar]
      refine ⟨?_, ?_, ?_, ?_⟩ <;> intro h <;> subst h <;> simp_all

theorem sizeJ_pos (j : Json) : 1 ≤ sizeJ j := by
  cases j <;> simp [sizeJ] <;> omega

theorem jsonQuote_data (s : String) :
    (jsonQuote s).data = '"' :: (escapeList s.data ++ ['"']) := by
  simp [jsonQuote, String.data_append]

theorem goodTail_comma (X : List Char) : goodTail (',' :: X) = true := rfl

theorem goodTail_rbrace (X : List Char) : goodTail ('\x7d' :: X) = true := rfl

theorem goodTail_rbracket (X : List Char) : goodTail (']' :: X) = true := rfl

theorem parseValue_quote_branch (fuel : Nat) (rest : List Char) :
    parseValue (fuel + 1) ('"' :: rest) =
      (parseStringBody rest).map
        (fun p => (Json.str (String.mk p.1), p.2)) := rfl

theorem parseValue_lbrace_branch (fuel : Nat) (rest : List Char) :
    parseValue (fuel + 1) ('\x7b' :: rest) =
      (match skipWs rest with
       | [] => none
       | c2 :: rest2 =>
         if c2 = '\x7d' then some (Json.obj [], rest2)
         else (parseMembers fuel (c2 :: rest2)).map
           (fun p => (Json.obj p.1, p.2))) := rfl

theorem parseValue_lbracket_branch (fuel : Nat) (rest : List Char) :
    parseValue (fuel + 1) ('[' :: rest) =
      (match skipWs rest with
       | [] => none
       | c2 :: rest2 =>
         if c2 = ']' then some (Json.arr [], rest2)
         else (parseElems fuel (c2 :: rest2)).map
           (fun p => (Json.arr p.1, p.2))) := rfl

theorem parseValue_number_branch (fuel : Nat) (c : Char) (rest : List Char)
    (hc : c = '-' ∨ c.isDigit = true) :
    parseValue (fuel + 1) (c :: rest) = parseNumber (c :: rest) := by
  obtain ⟨h1, h2, h3, h4, h5, h6, hws⟩ := number_head_facts c hc
  conv_lhs => rw [parseValue.eq_def]
  simp only [skipWs_cons_not_ws c rest hws]
  simp [h1, h2, h3, h4, h5, h6, hc]

theorem sizeJList_pos (l : List Json) (h : l ≠ []) : 1 ≤ sizeJList l := by
  cases l with
  | nil => exact absurd rfl h
  | cons j r => simp [sizeJList]; omega

theorem sizeJMembers_pos (es : List (String × Json)) (h : es ≠ []) :
    1 ≤ sizeJMembers es := by
  cases es with
  | nil => exact absurd rfl h
  | cons kv r =>
    obtain ⟨k, v⟩ := kv
    simp [sizeJMembers]
    omega

theorem renderMembers_head (es : List (String × Json)) (h : es ≠ []) :
    ∃ tl, (renderMembers es).data = '"' :: tl := by
  cases es with
  | nil => exact absurd rfl h
  | cons kv r =>
    obtain ⟨k, v⟩ := kv
    cases r with
    | nil =>
      refine ⟨escapeList k.data ++ ['"'] ++ (":" ++ render v).data, ?_⟩
      show (jsonQuote k ++ ":" ++ render v).data = _
      simp [String.data_append, jsonQuote_data]
    | cons kv2 r2 =>
      refine ⟨escapeList k.data ++ ['"'] ++
        (":" ++ render v ++ "," ++ renderMembers (kv2 :: r2)).data, ?_⟩
      show (jsonQuote k ++ ":" ++ render v ++ "," ++
        renderMembers (kv2 :: r2)).data = _
      simp [String.data_append, jsonQuote_data]

theorem parseElems_succ (fuel : Nat) (cs : List Char) :
    parseElems (fuel + 1) cs =
      (match parseValue fuel cs with
       | some (v, rest) =>
         (match skipWs rest with
          | ',' :: rest2 =>
            (parseElems fuel rest2).map (fun p => (v :: p.1, p.2))
          | ']' :: rest2 => some ([v], rest2)
          | _ => none)
       | none => none) := rfl

theorem parseMembers_quote (fuel : Nat) (X : List Char) :
    parseMembers (fuel + 1) ('"' :: X) =
      (match parseStringBody X with
       | some (k, rest1) =>
         (match skipWs rest1 with
          | ':' :: rest2 =>
            (match parseValue fuel rest2 with
             | some (v, rest3) =>
               (match skipWs rest3 with
                | ',' :: rest4 =>
                  (parseMembers fuel (skipWs rest4)).map
                    (fun p => ((String.mk k, v) :: p.1, p.2))
                | '\x7d' :: rest4 => some ([(String.mk k, v)], rest4)
                | _ => none)
             | none => none)
          | _ => none)
       | none => none) := rfl

theorem membersText_head (es : List (String × Json)) (h : es ≠ []) :
    ∃ tl, membersText es = '"' :: tl := by
  cases es with
  | nil => exact absurd rfl h
  | cons kv r =>
    obtain ⟨k, v⟩ := kv
    cases r with
    | nil => exact ⟨_, rfl⟩
    | cons kv2 r2 => exact ⟨_, rfl⟩

theorem wfJList_cons (j : Json) (r : List Json)
    (h : wfJList (j :: r) = true) : wfJ j = true ∧ wfJList r = true := by
  simp [wfJList, Bool.and_eq_true] at h
  exact h

theorem wfJMembers_cons (k : String) (v : Json) (r : List (String × Json))
    (h : wfJMembers ((k, v) :: r) = true) :
    wfJ v = true ∧ wfJMembers r = true := by
  simp [wfJMembers, Bool.and_eq_true] at h
  exact h

theorem strCleanB_escape (s : String) (h : strCleanB s = true) :
    escapeList s.data = s.data := by
  simpa [strCleanB] using h

/-- Round-trip of the parser over rendered documents: with enough fuel, a
rendered well-formed document followed by a delimiter parses back to
itself.  The four conjuncts cover values, array elements, object members
in `render`'s compact layout, and object members in `Format`'s verbatim
layout (clean keys, `", "` separators). -/
theorem parse_render_all : ∀ fuel : Nat,
    (∀ j : Json, wfJ j = true → sizeJ j ≤ fuel →
      ∀ rest, goodTail rest = true →
      parseValue fuel ((render j).data ++ rest) = some (j, rest)) ∧
    (∀ l : List Json, l ≠ [] → wfJList l = true → sizeJList l ≤ fuel →
      ∀ rest, parseElems fuel ((renderElems l).data ++ ']' :: rest) =
        some (l, rest)) ∧
    (∀ es : List (String × Json), es ≠ [] → wfJMembers es = true →
      sizeJMembers es ≤ fuel → ∀ rest,
      parseMembers fuel ((renderMembers es).data ++ '\x7d' :: rest) =
        some (es, rest)) ∧
    (∀ es : List (String × Json), es ≠ [] →
      (∀ kv ∈ es, strCleanB kv.1 = true) → wfJMembers es = true →
      sizeJMembers es ≤ fuel → ∀ rest,
      parseMembers fuel (membersText es ++ '\x7d' :: rest) =
        some (es, rest)) := by
  intro fuel
  induction fuel with
  | zero =>
    refine ⟨?_, ?_, ?_, ?_⟩
    · intro j hwf hsz
      exfalso
      have := sizeJ_pos j
      omega
    · intro l hne hwf hsz
      exfalso
      have := sizeJList_pos l hne
      omega
    · intro es hne hwf hsz
      exfalso
      have := sizeJMembers_pos es hne
      omega
    · intro es hne hcl hwf hsz
      exfalso
      have := sizeJMembers_pos es hne
      omega
  | succ fuel ih =>
    obtain ⟨ihV, ihE, ihM, ihL⟩ := ih
    have partV : ∀ j : Json, wfJ j = true → sizeJ j ≤ fuel + 1 →
        ∀ rest, goodTail rest = true →
        parseValue (fuel + 1) ((render j).data ++ rest) = some (j, rest) := by
      intro j hwf hsz rest hrest
      cases j with
      | null => rfl
      | bool b => cases b with
        | false => rfl
        | true => rfl
      | num n =>
        have hpn := parseNumber_int_tail n rest hrest
        obtain ⟨c, r, hl, hc⟩ := parseNumber_head _ _ hpn
        show parseValue (fuel + 1) ((formatInt n).data ++ rest) =
          some (Json.num n, rest)
        rw [hl, parseValue_number_branch fuel c r hc, ← hl]
        exact hpn
      | flt s =>
        have hpn := parseNumber_flt_tail s rest hwf hrest
        obtain ⟨c, r, hl, hc⟩ := parseNumber_head _ _ hpn
        show parseValue (fuel + 1) (s.data ++ rest) = some (Json.flt s, rest)
        rw [hl, parseValue_number_branch fuel c r hc, ← hl]
        exact hpn
      | str s =>
        show parseValue (fuel + 1) ((jsonQuote s).data ++ rest) =
          some (Json.str s, rest)
        have hsh : (jsonQuote s).data ++ rest =
            '"' :: (escapeList s.data ++ '"' :: rest) := by
          rw [jsonQuote_data]
          simp
        rw [hsh, parseValue_quote_branch, parseStringBody_escape]
        rfl
      | arr l =>
        show parseValue (fuel + 1)
          ((("[" : String) ++ renderElems l ++ "]").data ++ rest) =
          some (Json.arr l, rest)
        have hsh : (("[" : String) ++ renderElems l ++ "]").data ++ rest =
            '[' :: ((renderElems l).data ++ ']' :: rest) := by
          simp [String.data_append]
        rw [hsh, parseValue_lbracket_branch]
        cases l with
        | nil => rfl
        | cons j0 r0 =>
          have hwf0 := (wfJList_cons j0 r0 hwf).1
          obtain ⟨c0, cs0, hh, hws0, hnb, _⟩ := render_head j0 hwf0
          obtain ⟨D, hD⟩ : ∃ D, (renderElems (j0 :: r0)).data =
              (render j0).data ++ D := by
            cases r0 with
            | nil => exact ⟨[], by simp [renderElems]⟩
            | cons j1 r1 =>
              refine ⟨',' :: (renderElems (j1 :: r1)).data, ?_⟩
              show ((render j0 ++ ",") ++ renderElems (j1 :: r1)).data = _
              simp [String.data_append]
          have hfull : (renderElems (j0 :: r0)).data ++ ']' :: rest =
              c0 :: (cs0 ++ (D ++ ']' :: rest)) := by
            rw [hD, hh]
            simp
          rw [hfull, skipWs_cons_not_ws c0 _ hws0]
          simp only [if_neg hnb]
          have hback : c0 :: (cs0 ++ (D ++ ']' :: rest)) =
              (renderElems (j0 :: r0)).data ++ ']' :: rest := hfull.symm
          rw [hback]
          have hszl : sizeJList (j0 :: r0) ≤ fuel := by
            have : sizeJ (Json.arr (j0 :: r0)) = 1 + sizeJList (j0 :: r0) := rfl
            omega
          rw [ihE (j0 :: r0) (by simp) hwf hszl rest]
          rfl
      | obj es =>
        show parseValue (fuel + 1)
          ((("\x7b" : String) ++ renderMembers es ++ "\x7d").data ++ rest) =
          some (Json.obj es, rest)
        have hsh : (("\x7b" : String) ++ renderMembers es ++ "\x7d").data ++
            rest = '\x7b' :: ((renderMembers es).data ++ '\x7d' :: rest) := by
          simp [String.data_append]
        rw [hsh, parseValue_lbrace_branch]
        cases es with
        | nil => rfl
        | cons kv r =>
          obtain ⟨tl, htl⟩ := renderMembers_head (kv :: r) (by simp)
          have hfull : (renderMembers (kv :: r)).data ++ '\x7d' :: rest =
              '"' :: (tl ++ '\x7d' :: rest) := by
            rw [htl]
            simp
          rw [hfull, skipWs_cons_not_ws '"' _ (by decide)]
          simp only [if_neg (by decide : ¬ ('"' : Char) = '\x7d')]
          rw [hfull.symm]
          have hszm : sizeJMembers (kv :: r) ≤ fuel := by
            have : sizeJ (Json.obj (kv :: r)) = 1 + sizeJMembers (kv :: r) := rfl
            omega
          rw [ihM (kv :: r) (by simp) hwf hszm rest]
          rfl
    refine ⟨partV, ?_, ?_, ?_⟩
    · -- array elements
      intro l hne hwf hsz rest
      cases l with
      | nil => exact absurd rfl hne
      | cons j0 r0 =>
        obtain ⟨hwf0, hwfr⟩ := wfJList_cons j0 r0 hwf
        have hszj : sizeJ j0 ≤ fuel := by
          have : sizeJList (j0 :: r0) = 1 + sizeJ j0 + sizeJList r0 := rfl
          omega
        cases r0 with
        | nil =>
          show parseElems (fuel + 1) ((render j0).data ++ ']' :: rest) =
            some ([j0], rest)
          rw [parseElems_succ,
            ihV j0 hwf0 hszj (']' :: rest) (goodTail_rbracket rest)]
          rfl
        | cons j1 r1 =>
          have hd : (renderElems (j0 :: j1 :: r1)).data ++ ']' :: rest =
              (render j0).data ++
                (',' :: ((renderElems (j1 :: r1)).data ++ ']' :: rest)) := by
            show ((render j0 ++ ",") ++ renderElems (j1 :: r1)).data ++ _ = _
            simp [String.data_append]
          rw [hd, parseElems_succ,
            ihV j0 hwf0 hszj
              (',' :: ((renderElems (j1 :: r1)).data ++ ']' :: rest))
              (goodTail_comma _)]
          have hszr : sizeJList (j1 :: r1) ≤ fuel := by
            have : sizeJList (j0 :: j1 :: r1) =
              1 + sizeJ j0 + sizeJList (j1 :: r1) := rfl
            omega
          have hrec := ihE (j1 :: r1) (by simp) hwfr hszr rest
          simp only [skipWs_cons_not_ws ',' _ (by decide)]
          rw [hrec]
          rfl
    · -- compact object members
      intro es hne hwf hsz rest
      cases es with
      | nil => exact absurd rfl hne
      | cons kv r =>
        obtain ⟨k, v⟩ := kv
        obtain ⟨hwfv, hwfr⟩ := wfJMembers_cons k v r hwf
        have hszv : sizeJ v ≤ fuel := by
          have : sizeJMembers ((k, v) :: r) = 1 + sizeJ v + sizeJMembers r := rfl
          omega
        cases r with
        | nil =>
          have hd : (renderMembers [(k, v)]).data ++ '\x7d' :: rest =
              '"' :: (escapeList k.data ++
                '"' :: (':' :: ((render v).data ++ '\x7d' :: rest))) := by
            show (jsonQuote k ++ ":" ++ render v).data ++ _ = _
            simp [String.data_append, jsonQuote_data]
          rw [hd, parseMembers_quote, parseStringBody_escape]
          simp only [skipWs_cons_not_ws ':' _ (by decide)]
          rw [ihV v hwfv hszv ('\x7d' :: rest) (goodTail_rbrace rest)]
          simp only [skipWs_cons_not_ws '\x7d' _ (by decide)]
        | cons kv2 r2 =>
          have hd : (renderMembers ((k, v) :: kv2 :: r2)).data ++
              '\x7d' :: rest =
              '"' :: (escapeList k.data ++
                '"' :: (':' :: ((render v).data ++
                  ',' :: ((renderMembers (kv2 :: r2)).data ++
                    '\x7d' :: rest)))) := by
            show (jsonQuote k ++ ":" ++ render v ++ "," ++
              renderMembers (kv2 :: r2)).data ++ _ = _
            simp [String.data_append, jsonQuote_data]
          rw [hd, parseMembers_quote, parseStringBody_escape]
          simp only [skipWs_cons_not_ws ':' _ (by decide)]
          rw [ihV v hwfv hszv
            (',' :: ((renderMembers (kv2 :: r2)).data ++ '\x7d' :: rest))
            (goodTail_comma _)]
          simp only [skipWs_cons_not_ws ',' _ (by decide)]
          obtain ⟨tl2, htl2⟩ := renderMembers_head (kv2 :: r2) (by simp)
          have hws2 : skipWs ((renderMembers (kv2 :: r2)).data ++
              '\x7d' :: rest) =
              (renderMembers (kv2 :: r2)).data ++ '\x7d' :: rest := by
            rw [htl2]
            exact skipWs_cons_not_ws '"' _ (by decide)
          have hszr : sizeJMembers (kv2 :: r2) ≤ fuel := by
            have : sizeJMembers ((k, v) :: kv2 :: r2) =
              1 + sizeJ v + sizeJMembers (kv2 :: r2) := rfl
            omega
          rw [hws2, ihM (kv2 :: r2) (by simp) hwfr hszr rest]
          rfl
    · -- format-layout object members
      intro es hne hcl hwf hsz rest
      cases es with
      | nil => exact absurd rfl hne
      | cons kv r =>
        obtain ⟨k, v⟩ := kv
        obtain ⟨hwfv, hwfr⟩ := wfJMembers_cons k v r hwf
        have hclk : strCleanB k = true := hcl (k, v) (by simp)
        have hkesc := strCleanB_escape k hclk
        have hszv : sizeJ v ≤ fuel := by
          have : sizeJMembers ((k, v) :: r) = 1 + sizeJ v + sizeJMembers r := rfl
          omega
        cases r with
        | nil =>
          have hd : membersText [(k, v)] ++ '\x7d' :: rest =
              '"' :: (k.data ++
                '"' :: (':' :: ((render v).data ++ '\x7d' :: rest))) := by
            show ('"' :: (k.data ++ ['"', ':'] ++ (render v).data)) ++ _ = _
            simp
          rw [hd]
          rw [parseMembers_quote]
          rw [show k.data ++ '"' :: (':' :: ((render v).data ++ '\x7d' :: rest)) =
            k.data ++ '"' :: (':' :: ((render v).data ++ '\x7d' :: rest)) from rfl]
          have hstr : parseStringBody
              (k.data ++ '"' :: (':' :: ((render v).data ++ '\x7d' :: rest))) =
              some (k.data, ':' :: ((render v).data ++ '\x7d' :: rest)) :=
            parseStringBody_clean k.data hkesc _
          rw [hstr]
          simp only [skipWs_cons_not_ws ':' _ (by decide)]
          rw [ihV v hwfv hszv ('\x7d' :: rest) (goodTail_rbrace rest)]
          simp only [skipWs_cons_not_ws '\x7d' _ (by decide)]
        | cons kv2 r2 =>
          have hd : membersText ((k, v) :: kv2 :: r2) ++ '\x7d' :: rest =
              '"' :: (k.data ++
                '"' :: (':' :: ((render v).data ++
                  ',' :: (' ' :: (membersText (kv2 :: r2) ++
                    '\x7d' :: rest))))) := by
            show ('"' :: (k.data ++ ['"', ':'] ++ (render v).data ++
              [',', ' '] ++ membersText (kv2 :: r2))) ++ _ = _
            simp
          rw [hd, parseMembers_quote]
          have hstr : parseStringBody
              (k.data ++ '"' :: (':' :: ((render v).data ++
                ',' :: (' ' :: (membersText (kv2 :: r2) ++ '\x7d' :: rest))))) =
              some (k.data, ':' :: ((render v).data ++
                ',' :: (' ' :: (membersText (kv2 :: r2) ++ '\x7d' :: rest)))) :=
            parseStringBody_clean k.data hkesc _
          rw [hstr]
          simp only [skipWs_cons_not_ws ':' _ (by decide)]
          rw [ihV v hwfv hszv
            (',' :: (' ' :: (membersText (kv2 :: r2) ++ '\x7d' :: rest)))
            (goodTail_comma _)]
          simp only [skipWs_cons_not_ws ',' _ (by decide)]
          obtain ⟨tl2, htl2⟩ := membersText_head (kv2 :: r2) (by simp)
          have hws2 : skipWs (' ' :: (membersText (kv2 :: r2) ++
              '\x7d' :: rest)) =
              membersText (kv2 :: r2) ++ '\x7d' :: rest := by
            rw [skipWs_cons_ws ' ' _ (by decide), htl2]
            show skipWs ('"' :: (tl2 ++ '\x7d' :: rest)) = _
            exact skipWs_cons_not_ws '"' _ (by decide)
          have hclr : ∀ kv ∈ (kv2 :: r2), strCleanB kv.1 = true :=
            fun kv hkv => hcl kv (by simp [hkv])
          have hszr : sizeJMembers (kv2 :: r2) ≤ fuel := by
            have : sizeJMembers ((k, v) :: kv2 :: r2) =
              1 + sizeJ v + sizeJMembers (kv2 :: r2) := rfl
            omega
          rw [hws2, ihL (kv2 :: r2) (by simp) hclr hwfr hszr rest]
          rfl

/-! # Size bounds by rendered length -/

theorem formatInt_ne_nil (n : Int) : (formatInt n).data ≠ [] := by
  cases n with
  | ofNat m =>
    show (formatNat m).data ≠ []
    simpa [formatNat] using natDigitsAux_ne_nil (m + 1) m (by omega)
  | negSucc m =>
    show (("-" : String) ++ formatNat (m + 1)).data ≠ []
    simp [String.data_append]

mutual
theorem sizeJ_le_len : (j : Json) → wfJ j = true →
    sizeJ j ≤ (render j).data.length
| Json.null, _ => by simp [sizeJ, render]
| Json.bool b, _ => by cases b <;> simp [sizeJ, render]
| Json.num n, _ => by
  have h1 : 0 < (formatInt n).data.length :=
    List.length_pos.mpr (formatInt_ne_nil n)
  show sizeJ (Json.num n) ≤ (formatInt n).data.length
  have : sizeJ (Json.num n) = 1 := rfl
  omega
| Json.flt s, hwf => by
  have hp := isFltShape_parse s hwf
  obtain ⟨c, r, hl, _⟩ := parseNumber_head s.data _ hp
  show sizeJ (Json.flt s) ≤ s.data.length
  have h1 : sizeJ (Json.flt s) = 1 := rfl
  rw [hl, h1]
  simp
| Json.str s, _ => by
  show sizeJ (Json.str s) ≤ (jsonQuote s).data.length
  rw [jsonQuote_data]
  have : sizeJ (Json.str s) = 1 := rfl
  simp
  omega
| Json.arr l, hwf => by
  have hsub := sizeJList_le_len l hwf
  show sizeJ (Json.arr l) ≤ (("[" : String) ++ renderElems l ++ "]").data.length
  have h1 : sizeJ (Json.arr l) = 1 + sizeJList l := rfl
  have hb : (renderElems l).length = (renderElems l).data.length := rfl
  simp [String.data_append]
  omega
| Json.obj es, hwf => by
  have hsub := sizeJMembers_le_len es hwf
  show sizeJ (Json.obj es) ≤
    (("\x7b" : String) ++ renderMembers es ++ "\x7d").data.length
  have h1 : sizeJ (Json.obj es) = 1 + sizeJMembers es := rfl
  have hb : (renderMembers es).length = (renderMembers es).data.length := rfl
  simp [String.data_append]
  omega

theorem sizeJList_le_len : (l : List Json) → wfJList l = true →
    sizeJList l ≤ (renderElems l).data.length + 1
| [], _ => by simp [sizeJList, renderElems]
| [j], hwf => by
  have hwfj : wfJ j = true := (wfJList_cons j [] hwf).1
  have := sizeJ_le_len j hwfj
  show sizeJList [j] ≤ (render j).data.length + 1
  have h1 : sizeJList [j] = 1 + sizeJ j := rfl
  omega
| j :: j2 :: r, hwf => by
  obtain ⟨hwfj, hwfr⟩ := wfJList_cons j (j2 :: r) hwf
  have h1 := sizeJ_le_len j hwfj
  have h2 := sizeJList_le_len (j2 :: r) hwfr
  show sizeJList (j :: j2 :: r) ≤
    ((render j ++ ",") ++ renderElems (j2 :: r)).data.length + 1
  have h3 : sizeJList (j :: j2 :: r) = 1 + sizeJ j + sizeJList (j2 :: r) := rfl
  have hb1 : (render j).length = (render j).data.length := rfl
  have hb2 : (renderElems (j2 :: r)).length =
    (renderElems (j2 :: r)).data.length := rfl
  simp [String.data_append]
  omega

theorem sizeJMembers_le_len : (es : List (String × Json)) →
    wfJMembers es = true →
    sizeJMembers es ≤ (renderMembers es).data.length + 1
| [], _ => by simp [sizeJMembers, renderMembers]
| [(k, v)], hwf => by
  have hwfv : wfJ v = true := (wfJMembers_cons k v [] hwf).1
  have h1 := sizeJ_le_len v hwfv
  show sizeJMembers [(k, v)] ≤ ((jsonQuote k ++ ":") ++ render v).data.length + 1
  have h2 : sizeJMembers [(k, v)] = 1 + sizeJ v := rfl
  have hb1 : (jsonQuote k).length = (jsonQuote k).data.length := rfl
  have hb2 : (render v).length = (render v).data.length := rfl
  simp [String.data_append]
  omega
| (k, v) :: e2 :: r, hwf => by
  obtain ⟨hwfv, hwfr⟩ := wfJMembers_cons k v (e2 :: r) hwf
  have h1 := sizeJ_le_len v hwfv
  have h2 := sizeJMembers_le_len (e2 :: r) hwfr
  show sizeJMembers ((k, v) :: e2 :: r) ≤
    (((jsonQuote k ++ ":") ++ render v ++ ",") ++
      renderMembers (e2 :: r)).data.length + 1
  have h3 : sizeJMembers ((k, v) :: e2 :: r) =
    1 + sizeJ v + sizeJMembers (e2 :: r) := rfl
  have hb1 : (jsonQuote k).length = (jsonQuote k).data.length := rfl
  have hb2 : (render v).length = (render v).data.length := rfl
  have hb3 : (renderMembers (e2 :: r)).length =
    (renderMembers (e2 :: r)).data.length := rfl
  simp [String.data_append]
  omega
end

theorem sizeJMembers_le_membersText : (es : List (String × Json)) →
    wfJMembers es = true →
    sizeJMembers es ≤ (membersText es).length + 1
| [], _ => by simp [sizeJMembers, membersText]
| [(k, v)], hwf => by
  have hwfv : wfJ v = true := (wfJMembers_cons k v [] hwf).1
  have h1 := sizeJ_le_len v hwfv
  have h2 : sizeJMembers [(k, v)] = 1 + sizeJ v := rfl
  show sizeJMembers [(k, v)] ≤
    ('"' :: (k.data ++ ['"', ':'] ++ (render v).data)).length + 1
  have hb : (render v).length = (render v).data.length := rfl
  simp
  omega
| (k, v) :: e2 :: r, hwf => by
  obtain ⟨hwfv, hwfr⟩ := wfJMembers_cons k v (e2 :: r) hwf
  have h1 := sizeJ_le_len v hwfv
  have h2 := sizeJMembers_le_membersText (e2 :: r) hwfr
  have h3 : sizeJMembers ((k, v) :: e2 :: r) =
    1 + sizeJ v + sizeJMembers (e2 :: r) := rfl
  show sizeJMembers ((k, v) :: e2 :: r) ≤
    ('"' :: (k.data ++ ['"', ':'] ++ (render v).data ++ [',', ' '] ++
      membersText (e2 :: r))).length + 1
  have hb : (render v).length = (render v).data.length := rfl
  simp
  omega

/-! # Cleanliness of the fixed and generated keys -/

theorem escapeChar_digit (c : Char) (h : c.isDigit = true) :
    escapeChar c = [c] := by
  obtain ⟨h1, h2⟩ := digit_toNat_bounds c h
  unfold escapeChar
  split_ifs with g1 g2 g3 g4 g5 g6 g7 g8
  · subst g1; simp_all
  · subst g2; simp_all
  · subst g3; simp_all
  · subst g4; simp_all
  · subst g5; simp_all
  · exfalso
    rcases g6 with g | g | g | g
    · omega
    · subst g; simp_all
    · subst g; simp_all
    · subst g; simp_all
  · omega
  · omega
  · rfl

theorem escapeList_append (a b : List Char) :
    escapeList (a ++ b) = escapeList a ++ escapeList b := by
  induction a with
  | nil => rfl
  | cons c cs ih => simp [escapeList, ih]

theorem escapeList_of_plain (l : List Char)
    (h : ∀ c ∈ l, escapeChar c = [c]) : escapeList l = l := by
  induction l with
  | nil => rfl
  | cons c cs ih =>
    simp only [escapeList, h c (by simp), List.cons_append, List.nil_append]
    rw [ih (fun c hc => h c (by simp [hc]))]

theorem badKeyAtIndex_clean (i : Nat) : strCleanB (badKeyAtIndex i) = true := by
  have hdata : (badKeyAtIndex i).data =
      ("badKey[" : String).data ++ natDigits i ++ [']'] := by
    show (("badKey[" : String) ++ formatNat i ++ "]").data = _
    simp [String.data_append, formatNat]
  simp only [strCleanB, hdata, escapeList_append]
  have h1 : escapeList ("badKey[" : String).data = ("badKey[" : String).data := by
    decide
  have h2 : escapeList (natDigits i) = natDigits i :=
    escapeList_of_plain _ (fun c hc => escapeChar_digit c (natDigits_digits i c hc))
  have h3 : escapeList [']'] = [']'] := by decide
  rw [h1, h2, h3]
  simp

theorem callstackKey_clean : strCleanB callstackKey = true := by decide

theorem warnImbalancedKey_clean : strCleanB warnImbalancedKey = true := by decide

/-! # Well-formedness of marshalled values -/

mutual
theorem marshalVal_wf : (u : GoVal) → wfVal u = true →
    ∀ j, marshalVal u = some j → wfJ j = true
| GoVal.nilI, _ => by intro j h; cases h; rfl
| GoVal.boolean b, _ => by intro j h; cases h; rfl
| GoVal.intV n, _ => by intro j h; cases h; rfl
| GoVal.uintV n, _ => by intro j h; cases h; rfl
| GoVal.floatV w s, hwf => by
  intro j h
  cases h
  exact hwf
| GoVal.str s, _ => by intro j h; cases h; rfl
| GoVal.errV m, _ => by intro j h; cases h; rfl
| GoVal.slice l, hwf => by
  intro j h
  cases hm : marshalList l with
  | none =>
    rw [show marshalVal (GoVal.slice l) = (marshalList l).map Json.arr from rfl,
      hm] at h
    simp at h
  | some js =>
    rw [show marshalVal (GoVal.slice l) = (marshalList l).map Json.arr from rfl,
      hm] at h
    simp at h
    rw [← h]
    exact marshalList_wf l hwf js hm
| GoVal.other m d, hwf => by
  intro j h
  rw [show marshalVal (GoVal.other m d) = m from rfl] at h
  cases m with
  | none => simp at h
  | some j0 =>
    simp at h
    rw [← h]
    exact hwf
| GoVal.ptr none, _ => by intro j h; cases h; rfl
| GoVal.ptr (some v), hwf => by
  intro j h
  rw [show marshalVal (GoVal.ptr (some v)) = marshalVal v from rfl] at h
  exact marshalVal_wf v hwf j h

theorem marshalList_wf : (l : List GoVal) → wfValList l = true →
    ∀ js, marshalList l = some js → wfJList js = true
| [], _ => by intro js h; cases h; rfl
| v :: rest, hwf => by
  intro js h
  have hwv : wfVal v = true ∧ wfValList rest = true := by
    simpa [wfValList, Bool.and_eq_true] using hwf
  cases hv : marshalVal v with
  | none =>
    rw [show marshalList (v :: rest) =
      (match marshalVal v, marshalList rest with
       | some j, some js => some (j :: js)
       | _, _ => none) from rfl, hv] at h
    simp at h
  | some j0 =>
    cases hr : marshalList rest with
    | none =>
      rw [show marshalList (v :: rest) =
        (match marshalVal v, marshalList rest with
         | some j, some js => some (j :: js)
         | _, _ => none) from rfl, hv, hr] at h
      simp at h
    | some js0 =>
      rw [show marshalList (v :: rest) =
        (match marshalVal v, marshalList rest with
         | some j, some js => some (j :: js)
         | _, _ => none) from rfl, hv, hr] at h
      simp at h
      rw [← h]
      have h1 := marshalVal_wf v hwv.1 j0 hv
      have h2 := marshalList_wf rest hwv.2 js0 hr
      simp [wfJList, Bool.and_eq_true]
      exact ⟨h1, h2⟩
end

theorem chunkJson_wf (u : GoVal) (h : wfVal u = true) :
    wfJ (chunkJson u) = true := by
  unfold chunkJson
  cases hm : marshalVal u with
  | none => rfl
  | some j => exact marshalVal_wf u h j hm

/-! # The emitted chunks are renderings of the Json-level entries -/

theorem appendKind_eq_render (stack : String) (u : GoVal)
    (hu : ∀ m, ¬ u = GoVal.errV m) :
    appendKind stack u = render (chunkJson u) := by
  cases u with
  | errV m => exact absurd rfl (hu m)
  | boolean b => cases b <;> rfl
  | nilI => rfl
  | intV n => rfl
  | uintV n => rfl
  | floatV w s => rfl
  | str s => rfl
  | slice l =>
    show (match marshalVal (GoVal.slice l) with
          | some j => render j
          | none => fallbackWith marshalStringO (debugRepr (GoVal.slice l))) = _
    unfold chunkJson
    cases hm : marshalVal (GoVal.slice l) with
    | none => rfl
    | some j => rfl
  | other m d =>
    show (match marshalVal (GoVal.other m d) with
          | some j => render j
          | none => fallbackWith marshalStringO (debugRepr (GoVal.other m d))) = _
    unfold chunkJson
    cases hm : marshalVal (GoVal.other m d) with
    | none => rfl
    | some j => rfl
  | ptr p =>
    show (match marshalVal (GoVal.ptr p) with
          | some j => render j
          | none => fallbackWith marshalStringO (debugRepr (GoVal.ptr p))) = _
    unfold chunkJson
    cases hm : marshalVal (GoVal.ptr p) with
    | none => rfl
    | some j => rfl

theorem fieldsForE_json (stack k : String) (v : GoVal)
    (hok : valOk v = true) :
    fieldsForE stack k v =
      Except.ok ((fieldEntriesJson stack k v).map
        (fun kv => (kv.1, render kv.2))) := by
  cases v with
  | nilI => rfl
  | errV m => rfl
  | ptr p =>
    cases p with
    | none => simp [valOk] at hok
    | some u =>
      cases u with
      | errV m => rfl
      | nilI =>
        show Except.ok [(k, appendKind stack GoVal.nilI)] =
          Except.ok [(k, render (chunkJson GoVal.nilI))]
        rw [appendKind_eq_render stack GoVal.nilI (fun mm hh => GoVal.noConfusion hh)]
      | ptr q =>
        show Except.ok [(k, appendKind stack (GoVal.ptr q))] =
          Except.ok [(k, render (chunkJson (GoVal.ptr q)))]
        rw [appendKind_eq_render stack (GoVal.ptr q) (fun mm hh => GoVal.noConfusion hh)]
      | boolean b =>
        show Except.ok [(k, appendKind stack (GoVal.boolean b))] =
          Except.ok [(k, render (chunkJson (GoVal.boolean b)))]
        rw [appendKind_eq_render stack (GoVal.boolean b) (fun mm hh => GoVal.noConfusion hh)]
      | intV n =>
        show Except.ok [(k, appendKind stack (GoVal.intV n))] =
          Except.ok [(k, render (chunkJson (GoVal.intV n)))]
        rw [appendKind_eq_render stack (GoVal.intV n) (fun mm hh => GoVal.noConfusion hh)]
      | uintV n =>
        show Except.ok [(k, appendKind stack (GoVal.uintV n))] =
          Except.ok [(k, render (chunkJson (GoVal.uintV n)))]
        rw [appendKind_eq_render stack (GoVal.uintV n) (fun mm hh => GoVal.noConfusion hh)]
      | floatV w s =>
        show Except.ok [(k, appendKind stack (GoVal.floatV w s))] =
          Except.ok [(k, render (chunkJson (GoVal.floatV w s)))]
        rw [appendKind_eq_render stack (GoVal.floatV w s) (fun mm hh => GoVal.noConfusion hh)]
      | str s =>
        show Except.ok [(k, appendKind stack (GoVal.str s))] =
          Except.ok [(k, render (chunkJson (GoVal.str s)))]
        rw [appendKind_eq_render stack (GoVal.str s) (fun mm hh => GoVal.noConfusion hh)]
      | slice l =>
        show Except.ok [(k, appendKind stack (GoVal.slice l))] =
          Except.ok [(k, render (chunkJson (GoVal.slice l)))]
        rw [appendKind_eq_render stack (GoVal.slice l) (fun mm hh => GoVal.noConfusion hh)]
      | other m d =>
        show Except.ok [(k, appendKind stack (GoVal.other m d))] =
          Except.ok [(k, render (chunkJson (GoVal.other m d)))]
        rw [appendKind_eq_render stack (GoVal.other m d) (fun mm hh => GoVal.noConfusion hh)]
  | boolean b =>
    show Except.ok [(k, appendKind stack (GoVal.boolean b))] =
      Except.ok [(k, render (chunkJson (GoVal.boolean b)))]
    rw [appendKind_eq_render stack (GoVal.boolean b) (fun mm hh => GoVal.noConfusion hh)]
  | intV n =>
    show Except.ok [(k, appendKind stack (GoVal.intV n))] =
      Except.ok [(k, render (chunkJson (GoVal.intV n)))]
    rw [appendKind_eq_render stack (GoVal.intV n) (fun mm hh => GoVal.noConfusion hh)]
  | uintV n =>
    show Except.ok [(k, appendKind stack (GoVal.uintV n))] =
      Except.ok [(k, render (chunkJson (GoVal.uintV n)))]
    rw [appendKind_eq_render stack (GoVal.uintV n) (fun mm hh => GoVal.noConfusion hh)]
  | floatV w s =>
    show Except.ok [(k, appendKind stack (GoVal.floatV w s))] =
      Except.ok [(k, render (chunkJson (GoVal.floatV w s)))]
    rw [appendKind_eq_render stack (GoVal.floatV w s) (fun mm hh => GoVal.noConfusion hh)]
  | str s =>
    show Except.ok [(k, appendKind stack (GoVal.str s))] =
      Except.ok [(k, render (chunkJson (GoVal.str s)))]
    rw [appendKind_eq_render stack (GoVal.str s) (fun mm hh => GoVal.noConfusion hh)]
  | slice l =>
    show Except.ok [(k, appendKind stack (GoVal.slice l))] =
      Except.ok [(k, render (chunkJson (GoVal.slice l)))]
    rw [appendKind_eq_render stack (GoVal.slice l) (fun mm hh => GoVal.noConfusion hh)]
  | other m d =>
    show Except.ok [(k, appendKind stack (GoVal.other m d))] =
      Except.ok [(k, render (chunkJson (GoVal.other m d)))]
    rw [appendKind_eq_render stack (GoVal.other m d) (fun mm hh => GoVal.noConfusion hh)]

theorem pairArgsOk_cons (k v : GoVal) (rest : List GoVal)
    (h : pairArgsOk (k :: v :: rest) = true) :
    (∀ s, k = GoVal.str s → (s = ("") ∨ strCleanB s = true)) ∧
    valOk v = true ∧ wfVal v = true ∧ pairArgsOk rest = true := by
  simp only [pairArgsOk, Bool.and_eq_true] at h
  obtain ⟨⟨⟨hk, hv⟩, hw⟩, hr⟩ := h
  refine ⟨?_, hv, hw, hr⟩
  intro s hs
  subst hs
  simpa [Bool.or_eq_true] using hk

theorem pairFieldsE_json (stack : String) :
    ∀ (args : List GoVal) (i : Nat), pairArgsOk args = true →
    pairFieldsE stack i args =
      Except.ok ((pairEntriesJson stack i args).map
        (fun kv => (kv.1, render kv.2)))
| [], _, _ => rfl
| [x], _, _ => rfl
| k :: v :: rest, i, h => by
  obtain ⟨hk, hv, hw, hr⟩ := pairArgsOk_cons k v rest h
  have ih := pairFieldsE_json stack rest (i + 2) hr
  simp only [pairFieldsE, pairEntriesJson]
  rw [fieldsForE_json stack (keyFor i k) v hv, ih]
  simp [Except.bind, Except.map]

theorem formatFieldsE_json (stack : String) (args : List GoVal)
    (h : formatArgsOk args = true) :
    formatFieldsE stack args =
      Except.ok ((formatEntriesJson stack args).map
        (fun kv => (kv.1, render kv.2))) := by
  unfold formatFieldsE formatEntriesJson
  by_cases h0 : args.length > 0
  · by_cases h2 : args.length % 2 = 0
    · simp only [if_pos h0, if_pos h2]
      exact pairFieldsE_json stack args 0 (by simpa [formatArgsOk, h2] using h)
    · simp only [if_pos h0, if_neg h2]
      exact fieldsForE_json stack warnImbalancedKey (GoVal.slice args) rfl
  · simp only [if_neg h0]
    rfl

theorem keyFor_clean (i : Nat) (k : GoVal)
    (hk : ∀ s, k = GoVal.str s → (s = ("") ∨ strCleanB s = true)) :
    strCleanB (keyFor i k) = true := by
  cases k with
  | str s =>
    by_cases hs : s = ("")
    · simp [keyFor, hs, badKeyAtIndex_clean]
    · rcases hk s rfl with h | h
      · exact absurd h hs
      · simpa [keyFor, hs] using h
  | _ => exact badKeyAtIndex_clean i

theorem fieldEntriesJson_keys (stack k : String) (v : GoVal)
    (hkc : strCleanB k = true) :
    ∀ kv ∈ fieldEntriesJson stack k v, strCleanB kv.1 = true := by
  intro kv hkv
  cases v with
  | nilI =>
    simp [fieldEntriesJson] at hkv
    simp [hkv, hkc]
  | ptr p =>
    cases p with
    | none => simp [fieldEntriesJson, unwrap1] at hkv
    | some u =>
      cases u <;>
        (simp [fieldEntriesJson, unwrap1] at hkv;
         first
         | (rcases hkv with hkv | hkv <;>
             simp [hkv, hkc, callstackKey_clean])
         | simp [hkv, hkc])
  | errV m =>
    simp [fieldEntriesJson, unwrap1] at hkv
    rcases hkv with hkv | hkv <;> simp [hkv, hkc, callstackKey_clean]
  | _ =>
    simp [fieldEntriesJson, unwrap1] at hkv
    simp [hkv, hkc]

theorem fieldEntriesJson_wf (stack k : String) (v : GoVal)
    (hw : wfVal v = true) :
    ∀ kv ∈ fieldEntriesJson stack k v, wfJ kv.2 = true := by
  intro kv hkv
  cases v with
  | nilI =>
    simp [fieldEntriesJson] at hkv
    simp [hkv]
    rfl
  | ptr p =>
    cases p with
    | none => simp [fieldEntriesJson, unwrap1] at hkv
    | some u =>
      cases u with
      | errV m =>
        simp [fieldEntriesJson, unwrap1] at hkv
        rcases hkv with hkv | hkv <;> (simp [hkv]; rfl)
      | _ =>
        simp only [fieldEntriesJson, unwrap1] at hkv
        simp at hkv
        rw [hkv]
        exact chunkJson_wf _ hw
  | errV m =>
    simp [fieldEntriesJson, unwrap1] at hkv
    rcases hkv with hkv | hkv <;> (simp [hkv]; rfl)
  | _ =>
    simp only [fieldEntriesJson, unwrap1] at hkv
    simp at hkv
    rw [hkv]
    exact chunkJson_wf _ hw

theorem pairEntriesJson_keys (stack : String) :
    ∀ (args : List GoVal) (i : Nat), pairArgsOk args = true →
    ∀ kv ∈ pairEntriesJson stack i args, strCleanB kv.1 = true
| [], _, _ => by intro kv hkv; simp [pairEntriesJson] at hkv
| [x], _, _ => by intro kv hkv; simp [pairEntriesJson] at hkv
| k :: v :: rest, i, h => by
  obtain ⟨hk, hv, hw, hr⟩ := pairArgsOk_cons k v rest h
  intro kv hkv
  simp only [pairEntriesJson, List.mem_append] at hkv
  rcases hkv with hkv | hkv
  · exact fieldEntriesJson_keys stack (keyFor i k) v
      (keyFor_clean i k hk) kv hkv
  · exact pairEntriesJson_keys stack rest (i + 2) hr kv hkv

theorem pairEntriesJson_wf (stack : String) :
    ∀ (args : List GoVal) (i : Nat), pairArgsOk args = true →
    ∀ kv ∈ pairEntriesJson stack i args, wfJ kv.2 = true
| [], _, _ => by intro kv hkv; simp [pairEntriesJson] at hkv
| [x], _, _ => by intro kv hkv; simp [pairEntriesJson] at hkv
| k :: v :: rest, i, h => by
  obtain ⟨hk, hv, hw, hr⟩ := pairArgsOk_cons k v rest h
  intro kv hkv
  simp only [pairEntriesJson, List.mem_append] at hkv
  rcases hkv with hkv | hkv
  · exact fieldEntriesJson_wf stack (keyFor i k) v hw kv hkv
  · exact pairEntriesJson_wf stack rest (i + 2) hr kv hkv

theorem formatEntriesJson_keys (stack : String) (args : List GoVal)
    (h : formatArgsOk args = true) :
    ∀ kv ∈ formatEntriesJson stack args, strCleanB kv.1 = true := by
  unfold formatEntriesJson
  by_cases h0 : args.length > 0
  · by_cases h2 : args.length % 2 = 0
    · simp only [if_pos h0, if_pos h2]
      exact pairEntriesJson_keys stack args 0
        (by simpa [formatArgsOk, h2] using h)
    · simp only [if_pos h0, if_neg h2]
      exact fieldEntriesJson_keys stack warnImbalancedKey (GoVal.slice args)
        warnImbalancedKey_clean
  · simp only [if_neg h0]
    intro kv hkv
    simp at hkv

theorem formatEntriesJson_wf (stack : String) (args : List GoVal)
    (h : formatArgsOk args = true) :
    ∀ kv ∈ formatEntriesJson stack args, wfJ kv.2 = true := by
  unfold formatEntriesJson
  by_cases h0 : args.length > 0
  · by_cases h2 : args.length % 2 = 0
    · simp only [if_pos h0, if_pos h2]
      exact pairEntriesJson_wf stack args 0
        (by simpa [formatArgsOk, h2] using h)
    · simp only [if_pos h0, if_neg h2]
      have hw : wfVal (GoVal.slice args) = true := by
        simpa [formatArgsOk, h2] using h
      exact fieldEntriesJson_wf stack warnImbalancedKey (GoVal.slice args) hw
  · simp only [if_neg h0]
    intro kv hkv
    simp at hkv

theorem wfJMembers_of_forall :
    ∀ (es : List (String × Json)), (∀ kv ∈ es, wfJ kv.2 = true) →
    wfJMembers es = true
| [], _ => rfl
| (k, v) :: rest, h => by
  have h1 : wfJ v = true := h (k, v) (by simp)
  have h2 := wfJMembers_of_forall rest (fun kv hkv => h kv (by simp [hkv]))
  simp [wfJMembers, Bool.and_eq_true, h1, h2]

theorem membersText_cons_tail : ∀ (es : List (String × Json)) (k : String)
    (v : Json), membersText ((k, v) :: es) =
      '"' :: (k.data ++ ['"', ':'] ++ (render v).data) ++ tailText es
| [], k, v => by simp [membersText, tailText]
| (k2, v2) :: rest, k, v => by
  have ih := membersText_cons_tail rest k2 v2
  show '"' :: (k.data ++ ['"', ':'] ++ (render v).data ++ [',', ' '] ++
      membersText ((k2, v2) :: rest)) = _
  rw [ih]
  simp [tailText, List.append_assoc]

theorem renderFields_data : ∀ (jl : List (String × Json)),
    (renderFields (jl.map (fun kv => (kv.1, render kv.2)))).data = tailText jl
| [] => rfl
| (k, v) :: rest => by
  have ih := renderFields_data rest
  have ha : (", \"" : String).data = [',', ' ', '"'] := rfl
  have hb : ("\":" : String).data = ['"', ':'] := rfl
  simp only [List.map_cons, renderFields, renderField, tailText,
    String.data_append, ha, hb, ih]
  simp [List.append_assoc]

theorem format_parse_aux (ts lvl name stack msg : String) (args : List GoVal)
    (hts : strCleanB ts = true) (hlvl : strCleanB lvl = true)
    (hname : strCleanB name = true) (hargs : formatArgsOk args = true) :
    ∃ out : String,
      formatE ts lvl name stack msg args = Except.ok out ∧
      out.data = '\x7b' ::
        (membersText (logEntries ts lvl name stack msg args) ++
          '\x7d' :: ['\n']) ∧
      parseValue (out.length + 1) out.data =
        some (Json.obj (logEntries ts lvl name stack msg args), ['\n']) := by
  have hle : logEntries ts lvl name stack msg args =
      ("_t", Json.str ts) :: ("_l", Json.str lvl) :: ("_n", Json.str name) ::
      ("_m", Json.str msg) :: formatEntriesJson stack args := rfl
  have hm : appendValueE stack (GoVal.str msg) =
      Except.ok (render (Json.str msg)) := by
    show Except.ok (appendKind stack (GoVal.str msg)) = _
    rw [appendKind_eq_render stack (GoVal.str msg)
      (fun mm hh => GoVal.noConfusion hh)]
    rfl
  have hf : fieldsE stack args = Except.ok (renderFields
      ((formatEntriesJson stack args).map (fun kv => (kv.1, render kv.2)))) := by
    rw [fieldsE_eq_formatFields, formatFieldsE_json stack args hargs]
    rfl
  have h2 : ("\"" : String).data = ['"'] := rfl
  have hq : ∀ s : String, strCleanB s = true →
      (render (Json.str s)).data = '"' :: s.data ++ ['"'] := by
    intro s hs
    have hmk : (String.mk (escapeList s.data)).data = s.data := by
      rw [strCleanB_escape s hs]
    show (jsonQuote s).data = _
    simp [jsonQuote, String.data_append, h2, hmk]
    exact strCleanB_escape s hs
  have h1 : ("\x7b\"_t\":\"" : String).data =
      ['\x7b', '"', '_', 't', '"', ':', '"'] := rfl
  have h3 : (", \"_l\":\"" : String).data =
      [',', ' ', '"', '_', 'l', '"', ':', '"'] := rfl
  have h4 : (", \"_n\":\"" : String).data =
      [',', ' ', '"', '_', 'n', '"', ':', '"'] := rfl
  have h5 : (", \"_m\":" : String).data =
      [',', ' ', '"', '_', 'm', '"', ':'] := rfl
  have h6 : ("\x7d\n" : String).data = ['\x7d', '\n'] := rfl
  have h7t : ("_t" : String).data = ['_', 't'] := rfl
  have h7l : ("_l" : String).data = ['_', 'l'] := rfl
  have h7n : ("_n" : String).data = ['_', 'n'] := rfl
  have h7m : ("_m" : String).data = ['_', 'm'] := rfl
  have hdata : ("\x7b\"_t\":\"" ++ ts ++ "\"" ++ ", \"_l\":\"" ++ lvl ++ "\"" ++
      ", \"_n\":\"" ++ name ++ "\"" ++ ", \"_m\":" ++ render (Json.str msg) ++
      renderFields ((formatEntriesJson stack args).map
        (fun kv => (kv.1, render kv.2))) ++ "\x7d\n").data =
      '\x7b' :: (membersText (logEntries ts lvl name stack msg args) ++
        '\x7d' :: ['\n']) := by
    rw [hle, membersText_cons_tail]
    simp only [tailText]
    rw [← renderFields_data (formatEntriesJson stack args)]
    simp [String.data_append, h1, h2, h3, h4, h5, h6, h7t, h7l, h7n, h7m,
      hq ts hts, hq lvl hlvl, hq name hname, List.append_assoc]
  have hkeys : ∀ kv ∈ logEntries ts lvl name stack msg args,
      strCleanB kv.1 = true := by
    rw [hle]
    intro kv hkv
    simp only [List.mem_cons] at hkv
    rcases hkv with h | h | h | h | h
    · subst h
      show strCleanB ("_t") = true
      decide
    · subst h
      show strCleanB ("_l") = true
      decide
    · subst h
      show strCleanB ("_n") = true
      decide
    · subst h
      show strCleanB ("_m") = true
      decide
    · exact formatEntriesJson_keys stack args hargs kv h
  have hwf : wfJMembers (logEntries ts lvl name stack msg args) = true := by
    apply wfJMembers_of_forall
    rw [hle]
    intro kv hkv
    simp only [List.mem_cons] at hkv
    rcases hkv with h | h | h | h | h
    · subst h; rfl
    · subst h; rfl
    · subst h; rfl
    · subst h; rfl
    · exact formatEntriesJson_wf stack args hargs kv h
  have hne : logEntries ts lvl name stack msg args ≠ [] := by
    rw [hle]
    intro hcon
    exact List.noConfusion hcon
  have hparse : ∀ out : String,
      out.data = '\x7b' ::
        (membersText (logEntries ts lvl name stack msg args) ++
          '\x7d' :: ['\n']) →
      parseValue (out.length + 1) out.data =
        some (Json.obj (logEntries ts lvl name stack msg args), ['\n']) := by
    intro out hod
    have hlen : out.length = out.data.length := rfl
    have hsz : sizeJMembers (logEntries ts lvl name stack msg args) ≤
        out.length := by
      have hb := sizeJMembers_le_membersText
        (logEntries ts lvl name stack msg args) hwf
      rw [hlen, hod]
      simp only [List.length_cons, List.length_append, List.length_nil]
      omega
    have hpm := (parse_render_all out.length).2.2.2
      (logEntries ts lvl name stack msg args) hne hkeys hwf hsz ['\n']
    obtain ⟨Y, hY⟩ : ∃ Y,
        membersText (logEntries ts lvl name stack msg args) = '"' :: Y := by
      rw [hle, membersText_cons_tail]
      exact ⟨_, rfl⟩
    have hY2 : membersText (logEntries ts lvl name stack msg args) ++
        '\x7d' :: ['\n'] = '"' :: (Y ++ '\x7d' :: ['\n']) := by
      rw [hY, List.cons_append]
    have hws : skipWs ('"' :: (Y ++ '\x7d' :: ['\n'])) =
        '"' :: (Y ++ '\x7d' :: ['\n']) :=
      skipWs_cons_not_ws _ _ (by decide)
    rw [hod, parseValue_lbrace_branch, hY2, hws]
    show (if ('"' : Char) = '\x7d' then
        some (Json.obj [], Y ++ '\x7d' :: ['\n'])
      else (parseMembers out.length ('"' :: (Y ++ '\x7d' :: ['\n']))).map
        (fun p => (Json.obj p.1, p.2))) =
      some (Json.obj (logEntries ts lvl name stack msg args), ['\n'])
    rw [if_neg (by decide), ← hY2, hpm]
    rfl
  refine ⟨_, ?_, hdata, hparse _ hdata⟩
  show (appendValueE stack (GoVal.str msg)).bind _ = _
  rw [hm, hf]
  rfl

theorem insertEntry_not_mem : ∀ (m : List (String × Json)) (k : String)
    (v : Json), (∀ kv ∈ m, ¬ kv.1 = k) → insertEntry m k v = m ++ [(k, v)]
| [], k, v, _ => rfl
| (k0, v0) :: rest, k, v, h => by
  have hk0 : ¬ k0 = k := h (k0, v0) (by simp)
  have hrest := insertEntry_not_mem rest k v
    (fun kv hkv => h kv (by simp [hkv]))
  simp [insertEntry, hk0, hrest]

theorem foldl_insertEntry_distinct : ∀ (es acc : List (String × Json)),
    distinctKeys es = true →
    (∀ kv ∈ es, ∀ kv2 ∈ acc, ¬ kv2.1 = kv.1) →
    es.foldl (fun m kv => insertEntry m kv.1 kv.2) acc = acc ++ es
| [], acc, _, _ => by simp
| (k0, v0) :: rest, acc, hd, hni => by
  have hd2 : (rest.all (fun kv => !(kv.1 == k0)) && distinctKeys rest) =
      true := hd
  rw [Bool.and_eq_true] at hd2
  have hall := hd2.1
  rw [List.all_eq_true] at hall
  have hins : insertEntry acc k0 v0 = acc ++ [(k0, v0)] :=
    insertEntry_not_mem acc k0 v0
      (fun kv hkv => hni (k0, v0) (by simp) kv hkv)
  have hni2 : ∀ kv ∈ rest, ∀ kv2 ∈ acc ++ [(k0, v0)], ¬ kv2.1 = kv.1 := by
    intro kv hkv kv2 hkv2
    simp only [List.mem_append, List.mem_singleton] at hkv2
    rcases hkv2 with h | h
    · exact hni kv (by simp [hkv]) kv2 h
    · subst h
      have := hall kv hkv
      simp only [Bool.not_eq_eq_eq_not, Bool.not_true, beq_eq_false_iff_ne,
        ne_eq] at this
      intro hcon
      exact this hcon.symm
  have ih := foldl_insertEntry_distinct rest (acc ++ [(k0, v0)]) hd2.2 hni2
  simp only [List.foldl_cons, hins, ih, List.append_assoc,
    List.singleton_append]

theorem buildMap_distinct (es : List (String × Json))
    (h : distinctKeys es = true) : buildMap es = es := by
  unfold buildMap
  rw [foldl_insertEntry_distinct es [] h (fun kv _ kv2 hkv2 => absurd hkv2
    (List.not_mem_nil kv2))]
  simp

theorem lookupKey_insertEntry : ∀ (m : List (String × Json)) (k : String)
    (v : Json) (q : String), lookupKey (insertEntry m k v) q =
      if q = k then some v else lookupKey m q
| [], k, v, q => by
  by_cases h : q = k
  · simp [insertEntry, lookupKey, h]
  · have h2 : ¬ k = q := fun hcon => h hcon.symm
    simp [insertEntry, lookupKey, h, h2]
| (k0, v0) :: rest, k, v, q => by
  by_cases h0 : k0 = k
  · subst h0
    by_cases hq : q = k0
    · subst hq
      simp [insertEntry, lookupKey]
    · have h2 : ¬ k0 = q := fun hcon => hq hcon.symm
      simp [insertEntry, lookupKey, hq, h2]
  · by_cases hq : k0 = q
    · have h2 : ¬ q = k := fun hcon => h0 (hq.trans hcon)
      simp [insertEntry, lookupKey, h0, hq, h2]
    · simp [insertEntry, lookupKey, h0, hq,
        lookupKey_insertEntry rest k v q]

theorem lookupKey_foldl : ∀ (es acc : List (String × Json)) (k : String),
    lookupKey (es.foldl (fun m kv => insertEntry m kv.1 kv.2) acc) k =
      (match lastVal es k with
       | some v => some v
       | none => lookupKey acc k)
| [], acc, k => rfl
| (k0, v0) :: rest, acc, k => by
  simp only [List.foldl_cons]
  rw [lookupKey_foldl rest (insertEntry acc k0 v0) k]
  cases h : lastVal rest k with
  | some v => simp [lastVal, h]
  | none =>
    rw [lookupKey_insertEntry]
    by_cases hk : k = k0
    · subst hk
      simp [lastVal, h]
    · have h2 : ¬ k0 = k := fun hcon => hk hcon.symm
      simp [lastVal, h, hk, h2]

theorem lookupKey_buildMap (es : List (String × Json)) (k : String) :
    lookupKey (buildMap es) k = lastVal es k := by
  unfold buildMap
  rw [lookupKey_foldl]
  cases h : lastVal es k with
  | some v => rfl
  | none => rfl

/-- C1, counterexample: the claim quantifies over every argument list, but a
field key containing a quote is written verbatim by `set`, so the bytes
`Format` produces fail to parse as JSON (here the key `a"` yields the member
text `"a"":1`). -/
theorem C1_counterexample_quote_in_key :
    (formatE ("T") ("I") ("svc") ("S") ("m")
        [GoVal.str ("a\""), GoVal.intV 1]).map (fun out => jsonParses out) =
      Except.ok false := rfl

/-- C1, amended: when the timestamp, level name and encoder name are clean
under JSON escaping and the argument list is well-behaved (clean string
keys in key positions, no typed-nil panic, well-formed values), `Format`
succeeds, its byte stream parses as one JSON object, and it ends with a
single newline preceded by the closing brace. -/
theorem C1_amended_valid_json_single_newline (ts lvl name stack msg : String)
    (args : List GoVal) (hts : strCleanB ts = true)
    (hlvl : strCleanB lvl = true) (hname : strCleanB name = true)
    (hargs : formatArgsOk args = true) :
    ∃ out body, formatE ts lvl name stack msg args = Except.ok out ∧
      jsonParses out = true ∧ out.data = body ++ ['\x7d', '\n'] := by
  obtain ⟨out, hfmt, hdata, hparse⟩ :=
    format_parse_aux ts lvl name stack msg args hts hlvl hname hargs
  refine ⟨out, '\x7b' :: membersText (logEntries ts lvl name stack msg args),
    hfmt, ?_, ?_⟩
  · unfold jsonParses
    rw [hparse]
    rfl
  · rw [hdata]
    rfl

/-- C1, witness for the amended theorem at a concrete input. -/
theorem C1_amended_witness :
    ∃ out body, formatE ("2026-01-01") ("INFO") ("svc") ("STACK") ("started")
        [GoVal.str ("port"), GoVal.intV 8080] = Except.ok out ∧
      jsonParses out = true ∧ out.data = body ++ ['\x7d', '\n'] :=
  C1_amended_valid_json_single_newline ("2026-01-01") ("INFO") ("svc")
    ("STACK") ("started") [GoVal.str ("port"), GoVal.intV 8080]
    (by decide) (by decide) (by decide) (by decide)

/-- C8, counterexample: with the caller-supplied key `_m` the decoded map
holds 4 entries while `Format` emitted the 4 fixed keys plus 1 field — the
"one entry per emitted field" count of the claim fails because
`json.Unmarshal` into a map collapses the duplicate `_m` key. -/
theorem C8_counterexample_duplicate_key_loses_field :
    (logEntryE ("T") ("I") ("svc") ("S") ("m")
        [GoVal.str ("_m"), GoVal.intV 7]).map (fun m => m.length) =
      Except.ok 4 ∧
    (formatFieldsE ("S") [GoVal.str ("_m"), GoVal.intV 7]).map
        (fun fs => fs.length) = Except.ok 1 ∧
    ¬ (4 : Nat) = 4 + 1 :=
  ⟨rfl, rfl, by decide⟩

/-- C8, amended: `LogEntry` aborts fatally exactly when the bytes of
`Format` fail to unmarshal; and on clean inputs whose emitted keys are
pairwise distinct it returns the mapping holding `_t`, `_l`, `_n`, `_m`
plus one entry per emitted field, whose values are exactly the JSON parses
of the directly computed encodings (`formatFieldsE` renders precisely
those values). -/
theorem C8_amended_fatal_iff_unparseable_and_roundtrip :
    (∀ ts lvl name stack msg args out,
       formatE ts lvl name stack msg args = Except.ok out →
       (logEntryE ts lvl name stack msg args =
          Except.error ("Unable to unmarhsal entry from JSONFormatter") ↔
        unmarshalMap out = none)) ∧
    (∀ ts lvl name stack msg args,
       strCleanB ts = true → strCleanB lvl = true → strCleanB name = true →
       formatArgsOk args = true →
       distinctKeys (logEntries ts lvl name stack msg args) = true →
       logEntryE ts lvl name stack msg args =
         Except.ok (logEntries ts lvl name stack msg args) ∧
       formatFieldsE stack args = Except.ok
         ((formatEntriesJson stack args).map
           (fun kv => (kv.1, render kv.2))) ∧
       (logEntries ts lvl name stack msg args).length =
         4 + (formatEntriesJson stack args).length) := by
  constructor
  · intro ts lvl name stack msg args out hfmt
    have hle2 : logEntryE ts lvl name stack msg args =
        (match unmarshalMap out with
         | some m => Except.ok m
         | none =>
           Except.error ("Unable to unmarhsal entry from JSONFormatter")) := by
      unfold logEntryE
      rw [hfmt]
    rw [hle2]
    cases hm : unmarshalMap out with
    | some m => simp
    | none => simp
  · intro ts lvl name stack msg args hts hlvl hname hargs hdk
    obtain ⟨out, hfmt, hdata, hparse⟩ :=
      format_parse_aux ts lvl name stack msg args hts hlvl hname hargs
    refine ⟨?_, formatFieldsE_json stack args hargs, ?_⟩
    · have hum : unmarshalMap out =
          some (logEntries ts lvl name stack msg args) := by
        unfold unmarshalMap
        rw [hparse]
        show some (buildMap (logEntries ts lvl name stack msg args)) = _
        rw [buildMap_distinct _ hdk]
      unfold logEntryE
      rw [hfmt]
      show (match unmarshalMap out with
            | some m => Except.ok m
            | none =>
              Except.error ("Unable to unmarhsal entry from JSONFormatter")) =
        Except.ok (logEntries ts lvl name stack msg args)
      rw [hum]
    · simp [logEntries]
      omega

/-- C8, witness for the amended theorem at a concrete input. -/
theorem C8_amended_witness :
    logEntryE ("T") ("I") ("svc") ("S") ("m")
        [GoVal.str ("port"), GoVal.intV 8080] =
      Except.ok (logEntries ("T") ("I") ("svc") ("S") ("m")
        [GoVal.str ("port"), GoVal.intV 8080]) :=
  (C8_amended_fatal_iff_unparseable_and_roundtrip.2 ("T") ("I") ("svc") ("S")
    ("m") [GoVal.str ("port"), GoVal.intV 8080]
    (by decide) (by decide) (by decide) (by decide) (by decide)).1

/-- C10: in the map `LogEntry` returns, duplicate keys collapse with the
last occurrence winning — in general the decoded map answers every key
lookup with the value of the key's last occurrence in the raw member list,
and concretely the record with fields `a:1, a:2` decodes to a five-entry
map holding the single entry `a ↦ 2` although `Format` emitted two fields
beyond the fixed keys. -/
theorem C10_duplicate_keys_collapse_last_wins :
    (∀ (es : List (String × Json)) (k : String),
        lookupKey (buildMap es) k = lastVal es k) ∧
    logEntryE ("T") ("I") ("svc") ("S") ("m")
        [GoVal.str ("a"), GoVal.intV 1, GoVal.str ("a"), GoVal.intV 2] =
      Except.ok [("_t", Json.str ("T")), ("_l", Json.str ("I")),
        ("_n", Json.str ("svc")), ("_m", Json.str ("m")),
        ("a", Json.num 2)] ∧
    (formatFieldsE ("S") [GoVal.str ("a"), GoVal.intV 1, GoVal.str ("a"),
        GoVal.intV 2]).map (fun fs => fs.length) = Except.ok 2 :=
  ⟨lookupKey_buildMap, rfl, rfl⟩
